import Mathlib

/-!
# Verification of the clipboard-to-note content pipeline (`src/main.ts`)

A shallow embedding of the pure content-transformation logic of the
clipboard-to-note plugin, together with theorems checking the
natural-language specification against it.

Strings are modelled by Lean `String` (a list of characters); the
JavaScript string primitives used by the source (`trim`, `split`,
`includes`, `startsWith`, `endsWith`, `substring`, `replace`,
`toLowerCase`, number rendering) are embedded as transparent
character-list functions below.  Effectful steps (HTTP fetch, vault
reads/writes, the wall clock) are threaded as explicit parameters, one
per observable outcome of an effect in the source.
-/

namespace ClipNote

/-! ## Character-level string primitives (JS string methods) -/

/-- JS `String.prototype.split(sep)` for a single-character separator:
splits at every occurrence, keeping empty pieces.  The result is never
empty. -/
def splitChar (c : Char) : List Char → List (List Char)
  | [] => [[]]
  | x :: xs =>
    if x = c then [] :: splitChar c xs
    else
      match splitChar c xs with
      | [] => [[x]]
      | h :: t => (x :: h) :: t

/-- JS `String.prototype.includes`: `sub` occurs contiguously in `l`. -/
def includesAux (sub : List Char) : List Char → Bool
  | [] => sub.isPrefixOf []
  | l@(_ :: t) => sub.isPrefixOf l || includesAux sub t

/-- JS `text.includes(sub)`. -/
def strIncludes (s sub : String) : Bool := includesAux sub.data s.data

/-- JS `String.prototype.startsWith`. -/
def strStarts (s pre : String) : Bool := pre.data.isPrefixOf s.data

/-- JS `String.prototype.endsWith`. -/
def strEnds (s suf : String) : Bool := suf.data.isSuffixOf s.data

/-- JS `String.prototype.trim` (ASCII whitespace approximation). -/
def jsTrim (s : String) : String :=
  ⟨((s.data.dropWhile Char.isWhitespace).reverse.dropWhile Char.isWhitespace).reverse⟩

/-- JS `String.prototype.toLowerCase` (ASCII approximation). -/
def jsToLower (s : String) : String := ⟨s.data.map Char.toLower⟩

/-- JS `s.substring(0, n)` / taking the first `n` characters. -/
def strTake (s : String) (n : Nat) : String := ⟨s.data.take n⟩

/-- JS `s.substring(n)` / dropping the first `n` characters. -/
def strDrop (s : String) (n : Nat) : String := ⟨s.data.drop n⟩

/-- Split off the piece of `l` before the first occurrence of `c`,
returning it together with the remainder after `c`; `none` when `c`
does not occur. -/
def takeUntil (c : Char) : List Char → Option (List Char × List Char)
  | [] => none
  | x :: xs =>
    if x = c then some ([], xs)
    else
      match takeUntil c xs with
      | none => none
      | some (a, r) => some (x :: a, r)

/-- JS `String.prototype.replace` with a plain-string pattern: replaces
the first (leftmost) occurrence of `pat` only. -/
def replaceFirstAux (pat rep : List Char) : List Char → List Char
  | [] => if pat = [] then rep else []
  | l@(c :: t) =>
    if pat.isPrefixOf l then rep ++ l.drop pat.length
    else c :: replaceFirstAux pat rep t

/-- JS `s.replace(pat, rep)` (first occurrence, textual). -/
def replaceFirst (s pat rep : String) : String :=
  ⟨replaceFirstAux pat.data rep.data s.data⟩

/-- The decimal digit character for `d` (`d ≥ 9` clamps to `'9'`). -/
def digitChar (d : Nat) : Char :=
  if d = 0 then '0' else if d = 1 then '1' else if d = 2 then '2'
  else if d = 3 then '3' else if d = 4 then '4' else if d = 5 then '5'
  else if d = 6 then '6' else if d = 7 then '7' else if d = 8 then '8' else '9'

/-- Decimal digit list of `n`, most significant first (fuel-driven; any
`fuel > n` is enough). -/
def decChars : Nat → Nat → List Char
  | 0, _ => []
  | fuel + 1, n =>
    if n < 10 then [digitChar n]
    else decChars fuel (n / 10) ++ [digitChar (n % 10)]

/-- JS number-to-string conversion for naturals (template literals,
string concatenation with a number). -/
def natToString (n : Nat) : String := ⟨decChars (n + 1) n⟩

/-! ## `isURL` (src/main.ts:166-171) -/

/-- A JS regex line terminator (what `.` refuses to match). -/
def isLineTerminator (c : Char) : Bool :=
  c = '\n' || c = '\r' || c = ' ' || c = ' '

/-- `/^https?:\/\/.+/.test s`: an `http://` or `https://` scheme prefix
(case-sensitive) followed by at least one non-line-terminator
character. -/
def matchesHttpUrl (s : String) : Bool :=
  if strStarts s "https://" then
    match (strDrop s 8).data with
    | [] => false
    | c :: _ => !isLineTerminator c
  else if strStarts s "http://" then
    match (strDrop s 7).data with
    | [] => false
    | c :: _ => !isLineTerminator c
  else false

/-- `isURL` from src/main.ts:166-171: trim, reject multi-line text
(`split('\n').length > 1`), then test `/^https?:\/\/.+/`. -/
def isURL (text : String) : Bool :=
  let trimmed := jsTrim text
  if (splitChar '\n' trimmed.data).length > 1 then false
  else matchesHttpUrl trimmed

/-! ## `getAttachmentFolder` (src/main.ts:213-238)

The host configuration value `attachmentFolderPath` is passed
explicitly; the unset/undefined case and the empty string are both
falsy in the source's `!attachmentFolderPath` test and are modelled by
`""`. -/

/-- `notePath.substring(0, notePath.lastIndexOf('/'))`: the characters
strictly before the last `/`, and `""` when the path has no `/` (JS
`lastIndexOf` yields `-1` and `substring(0, -1)` is `substring(0, 0)`). -/
def noteDirOf (notePath : String) : String :=
  ⟨(((notePath.data.reverse.dropWhile (· ≠ '/')).drop 1)).reverse⟩

/-- `getAttachmentFolder` from src/main.ts:213-238. -/
def getAttachmentFolder (attachmentFolderPath notePath : String) : String :=
  if attachmentFolderPath = "" || attachmentFolderPath = "/" then
    let noteDir := noteDirOf notePath
    if noteDir = "" then "." else noteDir
  else if strStarts attachmentFolderPath "/" || !strIncludes attachmentFolderPath "./" then
    attachmentFolderPath
  else if strStarts attachmentFolderPath "./" then
    let noteDir := noteDirOf notePath
    let relPath := strDrop attachmentFolderPath 2
    if noteDir = "" then relPath else noteDir ++ "/" ++ relPath
  else attachmentFolderPath

/-! ## Lemmas about the primitives -/

theorem splitChar_ne_nil (c : Char) (l : List Char) : splitChar c l ≠ [] := by
  induction l with
  | nil => simp [splitChar]
  | cons x xs ih =>
    simp only [splitChar]
    split
    · simp
    · cases h : splitChar c xs with
      | nil => simp
      | cons h t => simp

theorem splitChar_length_gt_one_iff (c : Char) (l : List Char) :
    (splitChar c l).length > 1 ↔ c ∈ l := by
  induction l with
  | nil => simp [splitChar]
  | cons x xs ih =>
    simp only [splitChar]
    split
    · rename_i hx
      constructor
      · intro _; exact hx ▸ List.mem_cons_self _ _
      · intro _
        cases h : splitChar c xs with
        | nil => exact absurd h (splitChar_ne_nil c xs)
        | cons a t => simp
    · rename_i hx
      cases h : splitChar c xs with
      | nil => exact absurd h (splitChar_ne_nil c xs)
      | cons a t =>
        simp only [List.length_cons, List.mem_cons]
        rw [h] at ih
        simp only [List.length_cons] at ih
        constructor
        · intro hl
          exact Or.inr (ih.mp (by omega))
        · intro hm
          rcases hm with hm | hm
          · exact absurd hm.symm hx
          · have := ih.mpr hm; omega

/-! ## Claim C2: URL classification -/

/-- C2: `isURL s` is true iff the trimmed string contains no newline and
matches `/^https?:\/\/.+/` with a case-sensitive scheme; consequently a
string whose trimmed form contains a newline is never classified as a
URL. -/
theorem isURL_iff_singleLine_httpMatch (s : String) :
    (isURL s = true ↔ ('\n' ∉ (jsTrim s).data ∧ matchesHttpUrl (jsTrim s) = true)) ∧
    ('\n' ∈ (jsTrim s).data → isURL s = false) := by
  have hiff := splitChar_length_gt_one_iff '\n' (jsTrim s).data
  constructor
  · constructor
    · intro h
      by_cases hm : (splitChar '\n' (jsTrim s).data).length > 1
      · simp [isURL, hm] at h
      · exact ⟨fun hc => hm (hiff.mpr hc), by simpa [isURL, hm] using h⟩
    · rintro ⟨h1, h2⟩
      have hm : ¬(splitChar '\n' (jsTrim s).data).length > 1 := fun hgt => h1 (hiff.mp hgt)
      simp [isURL, hm, h2]
  · intro hc
    simp [isURL, hiff.mpr hc]

/-- Witness for C2 at a concrete multi-line input. -/
theorem isURL_iff_singleLine_httpMatch_witness :
    '\n' ∈ (jsTrim "http://a\nb").data ∧ isURL "http://a\nb" = false :=
  ⟨by decide, (isURL_iff_singleLine_httpMatch "http://a\nb").2 (by decide)⟩

/-! ## Claim C7: attachment folder resolution -/

/-- C7: `getAttachmentFolder` applies exactly the four ordered rules:
unset/`/` ⇒ note's directory (or `.` at the root); absolute or not
containing `./` ⇒ verbatim; starting with `./` ⇒ stripped and joined
under the note's directory; otherwise verbatim. -/
theorem getAttachmentFolder_rules (cfg notePath : String) :
    ((cfg = "" ∨ cfg = "/") →
      getAttachmentFolder cfg notePath =
        (if noteDirOf notePath = "" then "." else noteDirOf notePath)) ∧
    (cfg ≠ "" → cfg ≠ "/" →
      (strStarts cfg "/" = true ∨ strIncludes cfg "./" = false) →
      getAttachmentFolder cfg notePath = cfg) ∧
    (cfg ≠ "" → cfg ≠ "/" → strStarts cfg "/" = false → strIncludes cfg "./" = true →
      strStarts cfg "./" = true →
      getAttachmentFolder cfg notePath =
        (if noteDirOf notePath = "" then strDrop cfg 2
         else noteDirOf notePath ++ "/" ++ strDrop cfg 2)) ∧
    (cfg ≠ "" → cfg ≠ "/" → strStarts cfg "/" = false → strIncludes cfg "./" = true →
      strStarts cfg "./" = false →
      getAttachmentFolder cfg notePath = cfg) := by
  refine ⟨?_, ?_, ?_, ?_⟩
  · rintro (h | h) <;> simp [getAttachmentFolder, h]
  · rintro h1 h2 (h3 | h3) <;> simp [getAttachmentFolder, h1, h2, h3]
  · intro h1 h2 h3 h4 h5
    simp [getAttachmentFolder, h1, h2, h3, h4, h5]
  · intro h1 h2 h3 h4 h5
    simp [getAttachmentFolder, h1, h2, h3, h4, h5]

/-- Witness for C7: a `./`-relative configuration joined under the
note's directory. -/
theorem getAttachmentFolder_rules_witness :
    getAttachmentFolder "./attachments" "Notes/n.md" = "Notes/attachments" := by
  have h := (getAttachmentFolder_rules "./attachments" "Notes/n.md").2.2.1
    (by decide) (by decide) (by decide) (by decide) (by decide)
  exact h.trans (by decide)

/-! ## `createYamlFrontmatter` (src/main.ts:314-332)

The wall clock (`new Date()`) is passed explicitly as a `LocalTime`;
`month` stands for the already 1-based `getMonth() + 1` of the source. -/

/-- Local wall-clock reading, in the fields the source formats. -/
structure LocalTime where
  year : Nat
  month : Nat
  day : Nat
  hour : Nat
  minute : Nat
  deriving DecidableEq

/-- JS `String(n).padStart(2, '0')`. -/
def pad2 (n : Nat) : String := if n < 10 then "0" ++ natToString n else natToString n

/-- The timestamp template of src/main.ts:316: `YYYY-MM-DD HH:MM`. -/
def timestampString (t : LocalTime) : String :=
  natToString t.year ++ "-" ++ pad2 t.month ++ "-" ++ pad2 t.day ++ " " ++
    pad2 t.hour ++ ":" ++ pad2 t.minute

/-- JS `Array.prototype.join(sep)` on a list of strings. -/
def joinSep (sep : String) : List String → String
  | [] => ""
  | [x] => x
  | x :: xs => x ++ sep ++ joinSep sep xs

/-- `createYamlFrontmatter` from src/main.ts:314-332.  `sourceUrl` is the
optional `sourceUrl?: string` argument; the source's `if (sourceUrl)`
is JS truthiness, so an empty string behaves like an absent one. -/
def createYamlFrontmatter (now : LocalTime) (tags : List String)
    (sourceUrl : Option String) : String :=
  let timestamp := timestampString now
  let tagString := if tags.length > 0 then "[" ++ joinSep ", " tags ++ "]" else "[]"
  let frontmatter :=
    "---\nmodified: " ++ timestamp ++ "\ncreated: " ++ timestamp ++ "\ntags: " ++ tagString
  let frontmatter2 :=
    match sourceUrl with
    | some u => if u = "" then frontmatter
                else frontmatter ++ "\nsources: \"[Website](" ++ u ++ ")\""
    | none => frontmatter
  frontmatter2 ++ "\n---"

/-! ## `generateTitle` (src/main.ts:287-297) -/

/-- JS `line.replace(/^#+\s*/, '')`: when the line starts with `#`,
drop the leading run of `#` and any whitespace after it. -/
def stripLeadingHashes (s : String) : String :=
  match s.data with
  | '#' :: _ => ⟨(s.data.dropWhile (· = '#')).dropWhile Char.isWhitespace⟩
  | _ => s

/-- `text.trim().split('\n')[0]` cleaned per src/main.ts:289-290: first
line of the trimmed text, leading `#` markers stripped, trimmed. -/
def cleanedLine (text : String) : String :=
  jsTrim (stripLeadingHashes ⟨(splitChar '\n' (jsTrim text).data).headD []⟩)

/-- `generateTitle` from src/main.ts:287-297. -/
def generateTitle (text : String) : String :=
  let cleaned := cleanedLine text
  if cleaned.length > 50 then jsTrim (strTake cleaned 50) ++ "..."
  else if cleaned = "" then "Untitled Note" else cleaned

/-! ## Claim C5: frontmatter serialization -/

/-- C5 counterexample: a supplied-but-empty source URL is falsy in the
source's `if (sourceUrl)` test, so no `sources` line is emitted even
though a source URL was supplied. -/
theorem createYamlFrontmatter_empty_source_cex :
    createYamlFrontmatter ⟨2025, 1, 1, 0, 0⟩ [] (some "") =
      "---\nmodified: 2025-01-01 00:00\ncreated: 2025-01-01 00:00\ntags: []\n---" ∧
    createYamlFrontmatter ⟨2025, 1, 1, 0, 0⟩ [] (some "") ≠
      "---\nmodified: 2025-01-01 00:00\ncreated: 2025-01-01 00:00\ntags: []\nsources: \"[Website]()\"\n---" := by
  constructor
  · decide
  · decide

/-- C5 (amended): keys in the order `modified`, `created`, `tags`,
`sources`; both timestamp lines carry the same local-time value; tags
render as a bracketed comma-space list or `[]`; the `sources:
"[Website](url)"` line is present iff a non-empty source URL is
supplied.  The second conjunct instantiates the spec's example. -/
theorem createYamlFrontmatter_shape (now : LocalTime) (tags : List String)
    (src : Option String) :
    createYamlFrontmatter now tags src =
      "---\nmodified: " ++ timestampString now ++ "\ncreated: " ++ timestampString now ++
        "\ntags: " ++ (if tags = [] then "[]" else "[" ++ joinSep ", " tags ++ "]") ++
        (match src with
         | some u => if u = "" then "" else "\nsources: \"[Website](" ++ u ++ ")\""
         | none => "") ++ "\n---" ∧
    createYamlFrontmatter ⟨2025, 3, 4, 5, 6⟩ ["AI", "Research"] (some "https://ex.com/a") =
      "---\nmodified: 2025-03-04 05:06\ncreated: 2025-03-04 05:06\ntags: [AI, Research]\nsources: \"[Website](https://ex.com/a)\"\n---" := by
  constructor
  · cases src with
    | none =>
      cases tags <;>
        simp [createYamlFrontmatter, String.ext_iff, String.data_append]
    | some u =>
      by_cases hu : u = "" <;> cases tags <;>
        simp [createYamlFrontmatter, hu, String.ext_iff, String.data_append]
  · decide

/-! ## Claim C6: title generation -/

/-- C6 counterexample: a 62-character line whose 50th character is a
space.  The source trims the 50-character prefix before appending
`...`, so the title is not "exactly the first 50 characters followed
by `...`" as claimed. -/
theorem generateTitle_truncation_cex :
    generateTitle "aaaaaaaaaaaaaaaaaaaaaaaaaaaaaaaaaaaaaaaaaaaaaaaaa bbbbbbbbbbbb" ≠
      strTake "aaaaaaaaaaaaaaaaaaaaaaaaaaaaaaaaaaaaaaaaaaaaaaaaa bbbbbbbbbbbb" 50 ++ "..." ∧
    generateTitle "aaaaaaaaaaaaaaaaaaaaaaaaaaaaaaaaaaaaaaaaaaaaaaaaa bbbbbbbbbbbb" =
      "aaaaaaaaaaaaaaaaaaaaaaaaaaaaaaaaaaaaaaaaaaaaaaaaa..." := by
  constructor
  · decide
  · decide

/-- C6 (amended): the title is the first line of the trimmed text with
leading `#` markers stripped; when longer than 50 characters it is the
first 50 characters *with trailing whitespace trimmed* followed by
`...`; when at most 50 characters it is returned unchanged; when empty
it is `"Untitled Note"`. -/
theorem generateTitle_rules (text : String) :
    (cleanedLine text = "" → generateTitle text = "Untitled Note") ∧
    ((cleanedLine text).length ≤ 50 → cleanedLine text ≠ "" →
      generateTitle text = cleanedLine text) ∧
    ((cleanedLine text).length > 50 →
      generateTitle text = jsTrim (strTake (cleanedLine text) 50) ++ "...") := by
  refine ⟨?_, ?_, ?_⟩
  · intro h
    simp [generateTitle, h]
  · intro h1 h2
    have hn : ¬(cleanedLine text).length > 50 := by omega
    simp [generateTitle, hn, h2]
  · intro h
    simp [generateTitle, h]

/-- Witness for C6 at a short title. -/
theorem generateTitle_rules_witness : generateTitle "Hi there" = "Hi there" := by
  have h := (generateTitle_rules "Hi there").2.1 (by decide) (by decide)
  exact h.trans (by decide)

/-! ## `suggestTagsKeyword` (src/main.ts:127-164) -/

/-- A character matched by the class `[\s-_]` of
`folderName.split(/[\s-_]+/)` (ASCII whitespace approximation of
`\s`). -/
def isSepChar (c : Char) : Bool := c.isWhitespace || c = '-' || c = '_'

/-- JS `String.prototype.split` with the run regex `/[\s-_]+/`: pieces
between maximal separator runs, keeping empty edge pieces.  Fuel-driven;
`l.length + 1` fuel always suffices since every step consumes at least
one character. -/
def splitRunsGo : Nat → List Char → List Char → List (List Char)
  | 0, cur, _ => [cur.reverse]
  | _ + 1, cur, [] => [cur.reverse]
  | fuel + 1, cur, c :: t =>
    if isSepChar c then cur.reverse :: splitRunsGo fuel [] (t.dropWhile isSepChar)
    else splitRunsGo fuel (c :: cur) t

/-- `name.split(/[\s-_]+/)` from src/main.ts:149. -/
def splitWords (s : String) : List String :=
  (splitRunsGo (s.data.length + 1) [] s.data).map (fun l => (⟨l⟩ : String))

/-- `path.split('/')` last element: the leaf name of a folder path
(src/main.ts:136-137). -/
def leafName (path : String) : String := ⟨(splitChar '/' path.data).getLastD []⟩

/-- The score loop of src/main.ts:141-154: `+10` for a full-name
substring match, then `+3` per word of length `> 2` occurring in the
text. -/
def scoreFolder (lowerText lowerFolderName : String) : Nat :=
  let base := if strIncludes lowerText lowerFolderName then 10 else 0
  (splitWords lowerFolderName).foldl
    (fun score word =>
      if word.length > 2 && strIncludes lowerText word then score + 3 else score)
    base

/-- The folder loop of src/main.ts:132-159: skip root folders, score
each leaf name, keep positive scores in enumeration order. -/
def collectScored (lowerText : String) : List String → List (String × Nat)
  | [] => []
  | path :: rest =>
    if path == "" || path == "/" then collectScored lowerText rest
    else
      let folderName := leafName path
      let score := scoreFolder lowerText (jsToLower folderName)
      if score > 0 then (folderName, score) :: collectScored lowerText rest
      else collectScored lowerText rest

/-- Stable descending insertion used to model the ES2019+ stable
`Array.prototype.sort((a, b) => b.score - a.score)` of
src/main.ts:162: an element is placed before the first element whose
score is not larger, so equal scores keep their original order. -/
def insertScored (x : String × Nat) : List (String × Nat) → List (String × Nat)
  | [] => [x]
  | y :: t => if x.2 ≥ y.2 then x :: y :: t else y :: insertScored x t

/-- The stable descending-by-score sort of src/main.ts:162. -/
def sortScored (l : List (String × Nat)) : List (String × Nat) := l.foldr insertScored []

/-- `suggestTagsKeyword` from src/main.ts:127-164 with the vault's
folder paths passed explicitly. -/
def suggestTagsKeyword (text : String) (folders : List String) : List String :=
  ((sortScored (collectScored (jsToLower text) folders)).take 3).map Prod.fst

/-! Spec-side restatement of the keyword strategy (§4.4 of the spec),
written as score arithmetic over filtered folders rather than as the
source's accumulator loop. -/

/-- Modelled from the spec: `+3` per word of length `> 2` occurring as a
substring of the lower-cased input. -/
def specWordScore (lowerText name : String) : Nat :=
  3 * ((splitWords name).filter
        (fun w => w.length > 2 && strIncludes lowerText w)).length

/-- Modelled from the spec: the keyword score of a lower-cased leaf
name. -/
def specScore (lowerText name : String) : Nat :=
  (if strIncludes lowerText name then 10 else 0) + specWordScore lowerText name

/-- Modelled from the spec: non-root folders scored over their leaf
names, zero scores excluded, enumeration order preserved. -/
def specScored (lowerText : String) (folders : List String) : List (String × Nat) :=
  (folders.filter (fun p => !(p == "" || p == "/"))).filterMap (fun p =>
    let name := leafName p
    let s := specScore lowerText (jsToLower name)
    if s > 0 then some (name, s) else none)

/-! ## Lemmas for the keyword strategy -/

theorem foldl_score_eq (lowerText : String) (ws : List String) (b : Nat) :
    ws.foldl
      (fun score word =>
        if word.length > 2 && strIncludes lowerText word then score + 3 else score) b =
    b + 3 * (ws.filter (fun w => w.length > 2 && strIncludes lowerText w)).length := by
  induction ws generalizing b with
  | nil => simp
  | cons w t ih =>
    rw [List.foldl_cons, List.filter_cons]
    by_cases hc : (decide (w.length > 2) && strIncludes lowerText w) = true
    · rw [if_pos hc, if_pos hc, ih]
      simp only [List.length_cons]
      omega
    · rw [if_neg hc, if_neg hc, ih]

theorem scoreFolder_eq_specScore (lowerText name : String) :
    scoreFolder lowerText name = specScore lowerText name := by
  unfold scoreFolder specScore specWordScore
  rw [foldl_score_eq]

theorem collectScored_eq_specScored (lowerText : String) (folders : List String) :
    collectScored lowerText folders = specScored lowerText folders := by
  induction folders with
  | nil => rfl
  | cons p rest ih =>
    cases hc : (p == "" || p == "/") with
    | true =>
      have h1 : collectScored lowerText (p :: rest) = collectScored lowerText rest := by
        simp only [collectScored]
        rw [if_pos hc]
      have h2 : specScored lowerText (p :: rest) = specScored lowerText rest := by
        unfold specScored
        rw [List.filter_cons, if_neg (by simp [hc])]
      rw [h1, h2, ih]
    | false =>
      have h1 : collectScored lowerText (p :: rest) =
          (if specScore lowerText (jsToLower (leafName p)) > 0
           then (leafName p, specScore lowerText (jsToLower (leafName p))) ::
             collectScored lowerText rest
           else collectScored lowerText rest) := by
        simp only [collectScored]
        rw [if_neg (by simp [hc]), scoreFolder_eq_specScore]
      have h2 : specScored lowerText (p :: rest) =
          (if specScore lowerText (jsToLower (leafName p)) > 0
           then (leafName p, specScore lowerText (jsToLower (leafName p))) ::
             specScored lowerText rest
           else specScored lowerText rest) := by
        unfold specScored
        rw [List.filter_cons, if_pos (by simp [hc]), List.filterMap_cons]
        by_cases hs : specScore lowerText (jsToLower (leafName p)) > 0
        · rw [if_pos hs, if_pos hs]
        · rw [if_neg hs, if_neg hs]
      rw [h1, h2, ih]

theorem insertScored_mem (x z : String × Nat) (l : List (String × Nat))
    (h : z ∈ insertScored x l) : z = x ∨ z ∈ l := by
  induction l with
  | nil => simpa [insertScored] using h
  | cons y t ih =>
    simp only [insertScored] at h
    split at h
    · rcases List.mem_cons.mp h with h' | h'
      · exact Or.inl h'
      · exact Or.inr h'
    · rcases List.mem_cons.mp h with h' | h'
      · exact Or.inr (h' ▸ List.mem_cons_self y t)
      · rcases ih h' with h'' | h''
        · exact Or.inl h''
        · exact Or.inr (List.mem_cons_of_mem _ h'')

theorem insertScored_pairwise (x : String × Nat) (l : List (String × Nat))
    (h : l.Pairwise (fun a b => b.2 ≤ a.2)) :
    (insertScored x l).Pairwise (fun a b => b.2 ≤ a.2) := by
  induction l with
  | nil => simp [insertScored]
  | cons y t ih =>
    simp only [insertScored]
    rcases List.pairwise_cons.mp h with ⟨hy, ht⟩
    split
    · rename_i hge
      refine List.pairwise_cons.mpr ⟨?_, h⟩
      intro z hz
      rcases List.mem_cons.mp hz with hz | hz
      · exact hz ▸ hge
      · exact le_trans (hy z hz) hge
    · rename_i hlt
      refine List.pairwise_cons.mpr ⟨?_, ih ht⟩
      intro z hz
      rcases insertScored_mem x z t hz with hz | hz
      · subst hz; omega
      · exact hy z hz

theorem sortScored_pairwise (l : List (String × Nat)) :
    (sortScored l).Pairwise (fun a b => b.2 ≤ a.2) := by
  induction l with
  | nil => simp [sortScored]
  | cons x t ih => exact insertScored_pairwise x (sortScored t) ih

theorem insertScored_filter (x : String × Nat) (l : List (String × Nat)) (k : Nat) :
    (insertScored x l).filter (fun e => decide (e.2 = k)) =
      if x.2 = k then x :: l.filter (fun e => decide (e.2 = k))
      else l.filter (fun e => decide (e.2 = k)) := by
  induction l with
  | nil =>
    by_cases hx : x.2 = k <;> simp [insertScored, List.filter_cons, hx]
  | cons y t ih =>
    simp only [insertScored]
    split
    · rename_i hge
      by_cases hx : x.2 = k <;> simp [List.filter_cons, hx]
    · rename_i hlt
      have hxy : x.2 < y.2 := by omega
      by_cases hy : y.2 = k
      · have hx : ¬x.2 = k := by omega
        simp [List.filter_cons, hy, hx, ih]
      · by_cases hx : x.2 = k <;> simp [List.filter_cons, hy, hx, ih]

theorem sortScored_filter (l : List (String × Nat)) (k : Nat) :
    (sortScored l).filter (fun e => decide (e.2 = k)) =
      l.filter (fun e => decide (e.2 = k)) := by
  induction l with
  | nil => rfl
  | cons x t ih =>
    show (insertScored x (sortScored t)).filter _ = _
    rw [insertScored_filter]
    by_cases hx : x.2 = k <;> simp [List.filter_cons, hx, ih]

/-! ## Claim C3: keyword tag suggestion -/

/-- C3: the keyword strategy equals the spec's description: non-root
folders scored `+10` for a full lower-cased leaf-name substring match
plus `+3` per word of length `> 2` (split on whitespace/hyphen/
underscore) occurring in the lower-cased text; zero scores excluded;
stable descending sort (the second and third conjuncts show
`sortScored` is sorted by descending score and preserves the original
order of equal scores); leaf names of the first at most 3 entries. -/
theorem suggestTagsKeyword_matches_spec (text : String) (folders : List String) :
    suggestTagsKeyword text folders =
      ((sortScored (specScored (jsToLower text) folders)).take 3).map Prod.fst ∧
    (∀ l : List (String × Nat), (sortScored l).Pairwise (fun a b => b.2 ≤ a.2)) ∧
    (∀ (l : List (String × Nat)) (k : Nat),
      (sortScored l).filter (fun e => decide (e.2 = k)) =
        l.filter (fun e => decide (e.2 = k))) := by
  refine ⟨?_, sortScored_pairwise, sortScored_filter⟩
  unfold suggestTagsKeyword
  rw [collectScored_eq_specScored]

/-! ## `suggestTagsOpenAI` (src/main.ts:58-124)

The chat-completion request and the subsequent response handling are
effectful; the observable outcome of src/main.ts:79-117 is threaded as
one constructor per distinct control path. -/

/-- The possible outcomes of the chat-completion call of
src/main.ts:79-117: the `fetch` throws; `response.ok` is false;
`data.choices[0].message.content` cannot be read; `JSON.parse(content)`
throws; the parsed value is not an array; the parsed value is an
array. -/
inductive ChatOutcome where
  | transportError
  | badResponse
  | malformedEnvelope
  | unparsableContent
  | parsedNonArray
  | parsedArray (tags : List String)
  deriving DecidableEq

/-- The environment of one `suggestTagsOpenAI` call: the configured API
key, the vault's folder paths, and the chat-call outcome. -/
structure AIWorld where
  openAIApiKey : String
  folders : List String
  outcome : ChatOutcome

/-- The folder-name collection of src/main.ts:66-72: leaf names of all
non-root folders. -/
def nonRootLeafNames (folders : List String) : List String :=
  (folders.filter (fun p => !(p == "" || p == "/"))).map leafName

/-- `suggestTagsOpenAI` from src/main.ts:58-124: missing API key falls
back to the keyword strategy; no candidate folders returns `[]` before
any request; every failing outcome of the request (transport error,
non-2xx, envelope or JSON parse failure, non-array result) falls back
to the keyword strategy; an array result is truncated to 3 entries. -/
def suggestTagsOpenAI (w : AIWorld) (text : String) : List String :=
  if w.openAIApiKey = "" then suggestTagsKeyword text w.folders
  else
    let folderNames := nonRootLeafNames w.folders
    if folderNames.length = 0 then []
    else
      match w.outcome with
      | .parsedArray tags => tags.take 3
      | _ => suggestTagsKeyword text w.folders

theorem collectScored_eq_nil (lowerText : String) (folders : List String)
    (h : folders.filter (fun p => !(p == "" || p == "/")) = []) :
    collectScored lowerText folders = [] := by
  induction folders with
  | nil => rfl
  | cons p rest ih =>
    rw [List.filter_cons] at h
    cases hc : (!(p == "" || p == "/")) with
    | true => rw [if_pos hc] at h; cases h
    | false =>
      rw [if_neg (by simp [hc])] at h
      have hc' : (p == "" || p == "/") = true := by
        cases hb : (p == "" || p == "/") with
        | true => rfl
        | false => rw [hb] at hc; cases hc
      simp only [collectScored]
      rw [if_pos hc']
      exact ih h

theorem suggestTagsKeyword_eq_nil (text : String) (folders : List String)
    (h : nonRootLeafNames folders = []) : suggestTagsKeyword text folders = [] := by
  have hf : folders.filter (fun p => !(p == "" || p == "/")) = [] := by
    unfold nonRootLeafNames at h
    exact List.map_eq_nil_iff.mp h
  unfold suggestTagsKeyword
  rw [collectScored_eq_nil (jsToLower text) folders hf]
  rfl

/-! ## Claim C9: AI strategy fallback -/

/-- C9: with the AI strategy selected, an empty API key, a transport
error, a non-2xx response, an unreadable envelope, unparsable response
content, or a non-array parse result all yield exactly the keyword
strategy's tags for the same input text. -/
theorem suggestTagsOpenAI_fallback (w : AIWorld) (text : String)
    (h : w.openAIApiKey = "" ∨ w.outcome = .transportError ∨ w.outcome = .badResponse ∨
      w.outcome = .malformedEnvelope ∨ w.outcome = .unparsableContent ∨
      w.outcome = .parsedNonArray) :
    suggestTagsOpenAI w text = suggestTagsKeyword text w.folders := by
  by_cases hk : w.openAIApiKey = ""
  · simp [suggestTagsOpenAI, hk]
  · have ho : ∀ tags, w.outcome ≠ ChatOutcome.parsedArray tags := by
      rcases h with h | h | h | h | h | h
      · exact absurd h hk
      all_goals (intro tags hC; rw [h] at hC; cases hC)
    simp only [suggestTagsOpenAI]
    rw [if_neg hk]
    by_cases hf : (nonRootLeafNames w.folders).length = 0
    · rw [if_pos hf]
      exact (suggestTagsKeyword_eq_nil text w.folders (List.length_eq_zero.mp hf)).symm
    · rw [if_neg hf]

/-- Witness for C9: a non-2xx chat response with a configured key falls
back to the keyword tags. -/
theorem suggestTagsOpenAI_fallback_witness :
    suggestTagsOpenAI ⟨"sk-key", ["Research"], .badResponse⟩ "some research notes" =
      suggestTagsKeyword "some research notes" ["Research"] :=
  suggestTagsOpenAI_fallback ⟨"sk-key", ["Research"], .badResponse⟩ "some research notes"
    (Or.inr (Or.inr (Or.inl rfl)))

/-! ## Collision-safe file placement (src/main.ts:424-443 and 262-278) -/

/-- A path-separator character for normalization. -/
def isSlash (c : Char) : Bool := c = '/' || c = '\\'

/-- Collapse every run of path separators to a single `/`. -/
def collapseSlashes : List Char → List Char
  | [] => []
  | c :: t =>
    if isSlash c then
      match t with
      | [] => ['/']
      | d :: _ => if isSlash d then collapseSlashes t else '/' :: collapseSlashes t
    else c :: collapseSlashes t

/-- Modelled from the spec: the host vault's `path-normalize` capability
(`normalizePath`), which is outside src/: separators are unified to
`/`, runs are collapsed, and leading/trailing separators are removed. -/
def normalizePath (p : String) : String :=
  ⟨(((collapseSlashes p.data).dropWhile (· = '/')).reverse.dropWhile (· = '/')).reverse⟩

/-- The filename sanitization of src/main.ts:263 and 425: each of
`\ / : * ? " < > |` becomes `-`. -/
def sanitizeFilename (s : String) : String :=
  ⟨s.data.map (fun c =>
    if c = '\\' || c = '/' || c = ':' || c = '*' || c = '?' || c = '"' ||
       c = '<' || c = '>' || c = '|' then '-' else c)⟩

/-- `safeTitle.replace(/\.\.\.$/, '')` of src/main.ts:435: drop a
trailing `...`. -/
def stripTrailingEllipsis (s : String) : String :=
  if strEnds s "..." then ⟨s.data.dropLast.dropLast.dropLast⟩ else s

/-- The base/extension split of src/main.ts:269-270:
`replace(/\.[^.]+$/, '')` and `match(/\.[^.]+$/)`; the extension is the
final dot plus at least one non-dot character, else empty. -/
def splitExt (s : String) : String × String :=
  let rev := s.data.reverse
  let pre := rev.takeWhile (· ≠ '.')
  match rev.dropWhile (· ≠ '.') with
  | '.' :: restRev => if pre.isEmpty then (s, "") else (⟨restRev.reverse⟩, ⟨'.' :: pre.reverse⟩)
  | _ => (s, "")

/-- The `while (getAbstractFileByPath(finalPath))` collision loop shared
by src/main.ts:432-438 and 266-275: try the current candidate, then the
numbered candidates in order.  `fuel` bounds the iterations of the
source's unbounded loop (with a finite vault, any fuel above the number
of occupied paths suffices); exhaustion yields `none`. -/
def loopAux (isOccupied : String → Bool) (numbered : Nat → String) :
    Nat → String → Nat → Option String
  | 0, _, _ => none
  | fuel + 1, current, counter =>
    if isOccupied current then
      loopAux isOccupied numbered fuel (numbered counter) (counter + 1)
    else some current

/-- The initial note target of src/main.ts:425-427:
`inbox/safeTitle.md`. -/
def notePathInitial (inboxFolder title : String) : String :=
  normalizePath (inboxFolder ++ "/" ++ sanitizeFilename title ++ ".md")

/-- The numbered note candidate of src/main.ts:435-436:
`inbox/baseTitle-k.md` with the trailing `...` stripped. -/
def notePathNumbered (inboxFolder title : String) (k : Nat) : String :=
  normalizePath (inboxFolder ++ "/" ++ stripTrailingEllipsis (sanitizeFilename title) ++
    "-" ++ natToString k ++ ".md")

/-- The note collision loop of src/main.ts:432-438. -/
def finalNotePath (isOccupied : String → Bool) (fuel : Nat)
    (inboxFolder title : String) : Option String :=
  loopAux isOccupied (notePathNumbered inboxFolder title) fuel
    (notePathInitial inboxFolder title) 1

/-- The initial image target of src/main.ts:263-264:
`attachmentFolder/safeFilename`. -/
def imagePathInitial (attachmentFolder filename : String) : String :=
  normalizePath (attachmentFolder ++ "/" ++ sanitizeFilename filename)

/-- The numbered image candidate of src/main.ts:273:
`attachmentFolder/base-k[ext]` with the counter before the
extension. -/
def imagePathNumbered (attachmentFolder filename : String) (k : Nat) : String :=
  normalizePath (attachmentFolder ++ "/" ++ (splitExt (sanitizeFilename filename)).1 ++
    "-" ++ natToString k ++ (splitExt (sanitizeFilename filename)).2)

/-- The image collision loop of src/main.ts:266-275. -/
def finalImagePath (isOccupied : String → Bool) (fuel : Nat)
    (attachmentFolder filename : String) : Option String :=
  loopAux isOccupied (imagePathNumbered attachmentFolder filename) fuel
    (imagePathInitial attachmentFolder filename) 1

theorem loopAux_spec (occ : String → Bool) (mk : Nat → String) :
    ∀ (fuel : Nat) (cur : String) (counter : Nat) (p : String),
      loopAux occ mk fuel cur counter = some p →
      occ p = false ∧
      ((occ cur = false ∧ p = cur) ∨
       (occ cur = true ∧ ∃ k, counter ≤ k ∧ p = mk k ∧ occ (mk k) = false ∧
         ∀ j, counter ≤ j → j < k → occ (mk j) = true)) := by
  intro fuel
  induction fuel with
  | zero => intro cur counter p h; cases h
  | succ f ih =>
    intro cur counter p h
    simp only [loopAux] at h
    cases hcur : occ cur with
    | false =>
      rw [hcur] at h
      simp only [Bool.false_eq_true, if_false, Option.some.injEq] at h
      subst h
      exact ⟨hcur, Or.inl ⟨rfl, rfl⟩⟩
    | true =>
      rw [hcur] at h
      simp only [if_true] at h
      obtain ⟨hfree, hcase⟩ := ih (mk counter) (counter + 1) p h
      refine ⟨hfree, Or.inr ⟨rfl, ?_⟩⟩
      rcases hcase with ⟨hmkfree, rfl⟩ | ⟨hmkocc, k, hk, rfl, hkfree, hall⟩
      · exact ⟨counter, Nat.le_refl _, rfl, hmkfree, fun j h1 h2 => absurd (Nat.lt_of_le_of_lt h1 h2) (Nat.lt_irrefl _)⟩
      · refine ⟨k, by omega, rfl, hkfree, ?_⟩
        intro j h1 h2
        rcases Nat.eq_or_lt_of_le h1 with h1 | h1
        · exact h1 ▸ hmkocc
        · exact hall j (by omega) h2

/-! ## Claim C4: collision-safe naming -/

/-- C4: when the initial target is occupied, both the note and the image
paths get `-1`, `-2`, … immediately before the extension, at the
smallest free counter, so the persisted path is free at the time of
write; the concrete conjuncts check the `Draft` → `Draft-1.md` →
`Draft-2.md` example. -/
theorem collisionSuffix_spec :
    (∀ (occ : String → Bool) (fuel : Nat) (inboxFolder title p : String),
      finalNotePath occ fuel inboxFolder title = some p →
      occ p = false ∧
      ((occ (notePathInitial inboxFolder title) = false ∧ p = notePathInitial inboxFolder title) ∨
       (occ (notePathInitial inboxFolder title) = true ∧
        ∃ k, 1 ≤ k ∧ p = notePathNumbered inboxFolder title k ∧
          occ (notePathNumbered inboxFolder title k) = false ∧
          ∀ j, 1 ≤ j → j < k → occ (notePathNumbered inboxFolder title j) = true))) ∧
    (∀ (occ : String → Bool) (fuel : Nat) (attachmentFolder filename p : String),
      finalImagePath occ fuel attachmentFolder filename = some p →
      occ p = false ∧
      ((occ (imagePathInitial attachmentFolder filename) = false ∧
        p = imagePathInitial attachmentFolder filename) ∨
       (occ (imagePathInitial attachmentFolder filename) = true ∧
        ∃ k, 1 ≤ k ∧ p = imagePathNumbered attachmentFolder filename k ∧
          occ (imagePathNumbered attachmentFolder filename k) = false ∧
          ∀ j, 1 ≤ j → j < k → occ (imagePathNumbered attachmentFolder filename j) = true))) ∧
    finalNotePath (fun s => s == "Inbox/Draft.md") 3 "Inbox" "Draft" =
      some "Inbox/Draft-1.md" ∧
    finalNotePath (fun s => s == "Inbox/Draft.md" || s == "Inbox/Draft-1.md") 3 "Inbox" "Draft" =
      some "Inbox/Draft-2.md" := by
  refine ⟨?_, ?_, by decide, by decide⟩
  · intro occ fuel inboxFolder title p h
    exact loopAux_spec occ (notePathNumbered inboxFolder title) fuel
      (notePathInitial inboxFolder title) 1 p h
  · intro occ fuel attachmentFolder filename p h
    exact loopAux_spec occ (imagePathNumbered attachmentFolder filename) fuel
      (imagePathInitial attachmentFolder filename) 1 p h

/-- Witness for C4: the resolved `Draft-1.md` path is free in a vault
already holding `Draft.md`. -/
theorem collisionSuffix_spec_witness :
    (fun s => s == "Inbox/Draft.md") "Inbox/Draft-1.md" = false :=
  (collisionSuffix_spec.1 (fun s => s == "Inbox/Draft.md") 3 "Inbox" "Draft"
    "Inbox/Draft-1.md" (by decide)).1

/-! ## `downloadImage` (src/main.ts:240-285)

The effectful steps are threaded through an explicit environment:
`fetch` is the `requestUrl` outcome (`none` = the request threw, `some
status` = it returned that HTTP status), `createFolderOk` whether the
`ensureFolderExists` step succeeds when it runs, `writeOk` whether
`createBinary` succeeds, `occupied` the vault's path-existence check,
and `attachmentFolderPath` the host attachment configuration. -/

/-- The environment of one `downloadImage` call. -/
structure ImgWorld where
  fetch : Option Nat
  createFolderOk : Bool
  writeOk : Bool
  occupied : String → Bool
  attachmentFolderPath : String

/-- `downloadImage` from src/main.ts:240-285: every failure inside the
`try` (thrown fetch, non-200 status, folder-creation failure, write
failure) is caught and degrades to the original remote URL; success
returns the collision-resolved local path.  `none` models only the
modelling artifact of running the collision loop out of fuel. -/
def downloadImage (w : ImgWorld) (fuel : Nat)
    (imageUrl filename notePath : String) : Option String :=
  match w.fetch with
  | none => some imageUrl
  | some status =>
    if status ≠ 200 then some imageUrl
    else
      let attachmentFolder := getAttachmentFolder w.attachmentFolderPath notePath
      if (attachmentFolder ≠ "." ∧ attachmentFolder ≠ "/") ∧ w.createFolderOk = false then
        some imageUrl
      else
        match finalImagePath w.occupied fuel attachmentFolder filename with
        | none => none
        | some finalPath => if w.writeOk then some finalPath else some imageUrl

/-! ## Claim C8: image download never throws past its boundary -/

/-- C8: `downloadImage` either returns the original remote URL (on any
failure: thrown fetch, non-200 status, folder-creation failure, write
failure) or, on success, the collision-resolved local path — which is
free at write time and starts from the `\ / : * ? " < > | → -`
sanitized filename (last conjunct). -/
theorem downloadImage_boundary (w : ImgWorld) (fuel : Nat)
    (imageUrl filename notePath : String) :
    (∀ r, downloadImage w fuel imageUrl filename notePath = some r →
      r = imageUrl ∨
      (w.fetch = some 200 ∧ w.writeOk = true ∧
        finalImagePath w.occupied fuel
          (getAttachmentFolder w.attachmentFolderPath notePath) filename = some r ∧
        w.occupied r = false)) ∧
    (w.fetch = none →
      downloadImage w fuel imageUrl filename notePath = some imageUrl) ∧
    (∀ s, w.fetch = some s → s ≠ 200 →
      downloadImage w fuel imageUrl filename notePath = some imageUrl) ∧
    (w.writeOk = false → ∀ r,
      downloadImage w fuel imageUrl filename notePath = some r → r = imageUrl) ∧
    (w.fetch = some 200 →
      (getAttachmentFolder w.attachmentFolderPath notePath ≠ "." ∧
       getAttachmentFolder w.attachmentFolderPath notePath ≠ "/") →
      w.createFolderOk = false →
      downloadImage w fuel imageUrl filename notePath = some imageUrl) ∧
    (∀ folder fn, imagePathInitial folder fn =
      normalizePath (folder ++ "/" ++ sanitizeFilename fn)) := by
  refine ⟨?_, ?_, ?_, ?_, ?_, fun _ _ => rfl⟩
  · intro r h
    match hf : w.fetch with
    | none =>
      simp only [downloadImage, hf] at h
      exact Or.inl (by injection h with h; exact h.symm)
    | some status =>
      simp only [downloadImage, hf] at h
      by_cases hs : status ≠ 200
      · rw [if_pos hs] at h
        exact Or.inl (by injection h with h; exact h.symm)
      · rw [if_neg hs] at h
        push_neg at hs
        subst hs
        by_cases hfolder :
            (getAttachmentFolder w.attachmentFolderPath notePath ≠ "." ∧
             getAttachmentFolder w.attachmentFolderPath notePath ≠ "/") ∧
            w.createFolderOk = false
        · rw [if_pos hfolder] at h
          exact Or.inl (by injection h with h; exact h.symm)
        · rw [if_neg hfolder] at h
          cases hfin : finalImagePath w.occupied fuel
              (getAttachmentFolder w.attachmentFolderPath notePath) filename with
          | none => rw [hfin] at h; cases h
          | some finalPath =>
            rw [hfin] at h
            cases hw : w.writeOk with
            | false =>
              rw [hw] at h
              simp only [Bool.false_eq_true, if_false] at h
              exact Or.inl (by injection h with h; exact h.symm)
            | true =>
              rw [hw] at h
              simp only [if_true] at h
              injection h with h
              subst h
              refine Or.inr ⟨rfl, rfl, rfl, ?_⟩
              exact (loopAux_spec w.occupied _ fuel _ 1 finalPath hfin).1
  · intro hf
    simp only [downloadImage, hf]
  · intro s hf hs
    simp only [downloadImage, hf]
    rw [if_pos hs]
  · intro hw r h
    match hf : w.fetch with
    | none =>
      simp only [downloadImage, hf] at h
      injection h with h
      exact h.symm
    | some status =>
      simp only [downloadImage, hf] at h
      by_cases hs : status ≠ 200
      · rw [if_pos hs] at h
        injection h with h
        exact h.symm
      · rw [if_neg hs] at h
        by_cases hfolder :
            (getAttachmentFolder w.attachmentFolderPath notePath ≠ "." ∧
             getAttachmentFolder w.attachmentFolderPath notePath ≠ "/") ∧
            w.createFolderOk = false
        · rw [if_pos hfolder] at h
          injection h with h
          exact h.symm
        · rw [if_neg hfolder] at h
          cases hfin : finalImagePath w.occupied fuel
              (getAttachmentFolder w.attachmentFolderPath notePath) filename with
          | none => rw [hfin] at h; cases h
          | some finalPath =>
            rw [hfin, hw] at h
            simp only [Bool.false_eq_true, if_false] at h
            injection h with h
            exact h.symm
  · intro hf hfolder hcreate
    simp only [downloadImage, hf]
    rw [if_neg (fun hc => hc rfl), if_pos ⟨hfolder, hcreate⟩]

/-- Witness for C8: a non-200 response degrades to the original URL. -/
theorem downloadImage_boundary_witness :
    downloadImage ⟨some 404, true, true, fun _ => false, ""⟩ 3
      "https://ex.com/a.png" "img_a.png" "Inbox/n.md" = some "https://ex.com/a.png" :=
  (downloadImage_boundary ⟨some 404, true, true, fun _ => false, ""⟩ 3
    "https://ex.com/a.png" "img_a.png" "Inbox/n.md").2.2.1 404 rfl (by omega)

/-! ## URL resolution (the host's `new URL(relative, base)`)

The source delegates relative-URL resolution to the platform's `URL`
constructor (src/main.ts:518), which is outside src/.  The spec
describes it as standard relative-URL resolution with RFC 3986
`.`/`..` segment handling; the functions below model that. -/

/-- A character allowed after the first character of a URI scheme. -/
def isSchemeTail (c : Char) : Bool := c.isAlphanum || c = '+' || c = '-' || c = '.'

/-- Scan the remainder of a scheme up to `:`. -/
def schemeSplitGo (acc : List Char) : List Char → Option (List Char × List Char)
  | [] => none
  | c :: t =>
    if c = ':' then some (acc.reverse, t)
    else if isSchemeTail c then schemeSplitGo (c :: acc) t
    else none

/-- Split a leading `scheme:` off a URL reference, if present. -/
def schemeSplit (l : List Char) : Option (List Char × List Char) :=
  match l with
  | [] => none
  | c :: t => if c.isAlpha then schemeSplitGo [c] t else none

/-- A parsed absolute base URL: `scheme://authority path ?query #fragment`. -/
structure UrlParts where
  scheme : String
  authority : String
  path : String
  query : Option String
  fragment : Option String

/-- Character that does not end an authority component. -/
def notAuthStop (c : Char) : Bool := c != '/' && c != '?' && c != '#'

/-- Character that does not end a path component. -/
def notPathStop (c : Char) : Bool := c != '?' && c != '#'

/-- Modelled from the spec: parsing of the absolute base URL by the
host's URL parser.  A base without a `scheme://authority` shape cannot
serve as a base and yields `none` (the `URL` constructor throws). -/
def parseBase (base : String) : Option UrlParts :=
  match schemeSplit base.data with
  | none => none
  | some (sch, rest) =>
    match rest with
    | '/' :: '/' :: rest2 =>
      let auth := rest2.takeWhile notAuthStop
      let rest3 := rest2.dropWhile notAuthStop
      let path := rest3.takeWhile notPathStop
      let rest4 := rest3.dropWhile notPathStop
      match rest4 with
      | '?' :: r =>
        let q := r.takeWhile (· != '#')
        let r2 := r.dropWhile (· != '#')
        match r2 with
        | '#' :: f => some ⟨⟨sch⟩, ⟨auth⟩, ⟨path⟩, some ⟨q⟩, some ⟨f⟩⟩
        | _ => some ⟨⟨sch⟩, ⟨auth⟩, ⟨path⟩, some ⟨q⟩, none⟩
      | '#' :: f => some ⟨⟨sch⟩, ⟨auth⟩, ⟨path⟩, none, some ⟨f⟩⟩
      | _ => some ⟨⟨sch⟩, ⟨auth⟩, ⟨path⟩, none, none⟩
    | _ => none

/-- Remove the last segment of `out` together with its preceding `/`
(RFC 3986 remove_dot_segments, rule 2C). -/
def popSegment (out : List Char) : List Char :=
  ((out.reverse.dropWhile (· != '/')).drop 1).reverse

/-- RFC 3986 §5.2.4 remove_dot_segments, fuel-driven; every step
consumes at least one input character, so `input.length + 1` fuel
suffices. -/
def rdsGo : Nat → List Char → List Char → List Char
  | 0, input, out => out ++ input
  | fuel + 1, input, out =>
    match input with
    | [] => out
    | '.' :: '.' :: '/' :: r => rdsGo fuel r out
    | '.' :: '/' :: r => rdsGo fuel r out
    | '/' :: '.' :: '/' :: r => rdsGo fuel ('/' :: r) out
    | ['/', '.'] => rdsGo fuel ['/'] out
    | '/' :: '.' :: '.' :: '/' :: r => rdsGo fuel ('/' :: r) (popSegment out)
    | ['/', '.', '.'] => rdsGo fuel ['/'] (popSegment out)
    | ['.'] => rdsGo fuel [] out
    | ['.', '.'] => rdsGo fuel [] out
    | c :: r => rdsGo fuel (r.dropWhile (· != '/')) (out ++ c :: r.takeWhile (· != '/'))

/-- RFC 3986 `remove_dot_segments` on a path string. -/
def removeDotSegments (p : String) : String := ⟨rdsGo (p.data.length + 1) p.data []⟩

/-- The base path up to and including its last `/` (RFC 3986 §5.2.3
merge). -/
def upToLastSlash (l : List Char) : List Char := (l.reverse.dropWhile (· != '/')).reverse

/-- Render an optional query back into `?query`. -/
def renderQuery : Option String → String
  | none => ""
  | some q => "?" ++ q

/-- Modelled from the spec: `new URL(ref, base).toString()`, i.e.
standard relative-URL resolution per RFC 3986 §5.2 (scheme-carrying
references kept, network-path and absolute-path references, query and
fragment references, and path merging with dot-segment removal);
`none` when the base cannot be parsed (the constructor throws). -/
def resolveUrl (ref base : String) : Option String :=
  match parseBase base with
  | none => none
  | some b =>
    if (schemeSplit ref.data).isSome then some ref
    else
      match ref.data with
      | '/' :: '/' :: r2 =>
        let auth2 := r2.takeWhile notAuthStop
        let rest := r2.dropWhile notAuthStop
        let p2 := rest.takeWhile notPathStop
        let qf := rest.dropWhile notPathStop
        some (b.scheme ++ "://" ++ (⟨auth2⟩ : String) ++ removeDotSegments ⟨p2⟩ ++
          (⟨qf⟩ : String))
      | '/' :: _ =>
        let rp := ref.data.takeWhile notPathStop
        let qf := ref.data.dropWhile notPathStop
        some (b.scheme ++ "://" ++ b.authority ++ removeDotSegments ⟨rp⟩ ++ (⟨qf⟩ : String))
      | '?' :: _ => some (b.scheme ++ "://" ++ b.authority ++ b.path ++ ref)
      | '#' :: _ => some (b.scheme ++ "://" ++ b.authority ++ b.path ++ renderQuery b.query ++ ref)
      | [] => some (b.scheme ++ "://" ++ b.authority ++ b.path ++ renderQuery b.query)
      | _ =>
        let rp := ref.data.takeWhile notPathStop
        let qf := ref.data.dropWhile notPathStop
        let merged := if b.path = "" then '/' :: rp else upToLastSlash b.path.data ++ rp
        some (b.scheme ++ "://" ++ b.authority ++ removeDotSegments ⟨merged⟩ ++
          (⟨qf⟩ : String))

/-! ## `convertRelativeImageUrls` (src/main.ts:481-536) -/

/-- One scanning pass of the image regex of src/main.ts:483,
`!\[([^\]]*)\]\(([^)]+)\)`, with JS `exec` semantics: at a failed
match attempt the start position advances by one character; after a
successful match scanning resumes after the closing parenthesis.
Fuel-driven; every call consumes at least one character, so
`l.length` fuel suffices. -/
def scanFuel : Nat → List Char → List (List Char × List Char)
  | 0, _ => []
  | _ + 1, [] => []
  | fuel + 1, '!' :: '[' :: rest =>
    (match takeUntil ']' rest with
     | some (alt, rest2) =>
       match rest2 with
       | '(' :: rest3 =>
         (match takeUntil ')' rest3 with
          | some (url, rest4) =>
            if url.isEmpty then scanFuel fuel ('[' :: rest)
            else (alt, url) :: scanFuel fuel rest4
          | none => scanFuel fuel ('[' :: rest))
       | _ => scanFuel fuel ('[' :: rest)
     | none => scanFuel fuel ('[' :: rest))
  | fuel + 1, _ :: t => scanFuel fuel t

/-- All `(alt, url)` image references of a Markdown text, in match
order. -/
def scanImages (l : List Char) : List (List Char × List Char) := scanFuel l.length l

/-- The Markdown image span `![alt](url)`. -/
def mkImageRef (alt url : String) : String :=
  ⟨'!' :: '[' :: (alt.data ++ ']' :: '(' :: (url.data ++ [')']))⟩

/-- The skip-or-resolve step of src/main.ts:507-525 for one image URL:
`none` when the URL is skipped (`http://`, `https://`, `data:`,
`blob:` prefixes) or resolution fails (both leave the reference
unchanged), otherwise the absolute URL resolved against the base with
a trailing `/` appended when absent (src/main.ts:493-497). -/
def absolutizeImageUrl (url baseUrl : String) : Option String :=
  if strStarts url "http://" || strStarts url "https://" then none
  else if strStarts url "data:" || strStarts url "blob:" then none
  else resolveUrl url (if strEnds baseUrl "/" then baseUrl else baseUrl ++ "/")

/-- `convertRelativeImageUrls` from src/main.ts:481-536: scan all image
references, compute a replacement for each skipped-or-resolved one,
then apply all replacements afterwards by first-occurrence textual
`replace`. -/
def convertRelativeImageUrls (markdownContent baseUrl : String) : String :=
  let refs := scanImages markdownContent.data
  let replacements := refs.filterMap (fun pr =>
    let alt : String := ⟨pr.1⟩
    let url : String := ⟨pr.2⟩
    match absolutizeImageUrl url baseUrl with
    | none => none
    | some absUrl => some (mkImageRef alt url, mkImageRef alt absUrl))
  replacements.foldl (fun acc pr => replaceFirst acc pr.1 pr.2) markdownContent

/-! ## Lemmas for the absolutize pass -/

theorem str_eta (s : String) : String.mk s.data = s := rfl

theorem takeUntil_append (c : Char) (a r : List Char) (h : c ∉ a) :
    takeUntil c (a ++ c :: r) = some (a, r) := by
  induction a with
  | nil => simp [takeUntil]
  | cons x t ih =>
    have hx : x ≠ c := by
      intro e
      exact h (e ▸ List.mem_cons_self x t)
    have ht : c ∉ t := fun hm => h (List.mem_cons_of_mem _ hm)
    simp [takeUntil, hx, ih ht]

theorem scanFuel_nil (f : Nat) : scanFuel f [] = [] := by cases f <;> rfl

theorem isPrefixOf_self (l : List Char) : l.isPrefixOf l = true := by
  induction l with
  | nil => rfl
  | cons c t ih => simp [List.isPrefixOf, ih]

/-! ## Decimal rendering lemmas (for the timestamp claims) -/

theorem digitChar_inj (a b : Nat) (ha : a < 10) (hb : b < 10)
    (h : digitChar a = digitChar b) : a = b := by
  have key : ∀ x y : Fin 10, digitChar x.val = digitChar y.val → x = y := by decide
  exact congrArg Fin.val (key ⟨a, ha⟩ ⟨b, hb⟩ h)

theorem digitChar_ne_zero (d : Nat) (hd : d < 10) (h0 : d ≠ 0) : digitChar d ≠ '0' := by
  have key : ∀ x : Fin 10, x.val ≠ 0 → digitChar x.val ≠ '0' := by decide
  exact key ⟨d, hd⟩ h0

theorem digitChar_ne_newline (d : Nat) : digitChar d ≠ '\n' := by
  unfold digitChar
  split_ifs <;> decide

theorem decChars_ne_nil (f n : Nat) (h : n < f) : decChars f n ≠ [] := by
  cases f with
  | zero => omega
  | succ f' =>
    simp only [decChars]
    split
    · simp
    · simp

theorem decChars_no_newline (f n : Nat) : '\n' ∉ decChars f n := by
  induction f generalizing n with
  | zero => simp [decChars]
  | succ f ih =>
    simp only [decChars]
    split
    · intro hmem
      simp only [List.mem_singleton] at hmem
      exact digitChar_ne_newline n hmem.symm
    · intro hmem
      rcases List.mem_append.mp hmem with hm | hm
      · exact ih (n / 10) hm
      · simp only [List.mem_singleton] at hm
        exact digitChar_ne_newline (n % 10) hm.symm

theorem decChars_inj : ∀ (f1 n f2 m : Nat), n < f1 → m < f2 →
    decChars f1 n = decChars f2 m → n = m := by
  intro f1
  induction f1 with
  | zero => intro n f2 m hn; omega
  | succ f1 ih =>
    intro n f2 m hn hm h
    cases f2 with
    | zero => omega
    | succ f2 =>
      simp only [decChars] at h
      by_cases h10n : n < 10 <;> by_cases h10m : m < 10
      · rw [if_pos h10n, if_pos h10m] at h
        simp only [List.cons.injEq, and_true] at h
        exact digitChar_inj n m h10n h10m h
      · rw [if_pos h10n, if_neg h10m] at h
        exfalso
        have hlen := congrArg List.length h
        rw [List.length_append] at hlen
        simp only [List.length_cons, List.length_nil] at hlen
        have hne := decChars_ne_nil f2 (m / 10) (by omega)
        have hzero : (decChars f2 (m / 10)).length = 0 := by omega
        exact hne (List.length_eq_zero.mp hzero)
      · rw [if_neg h10n, if_pos h10m] at h
        exfalso
        have hlen := congrArg List.length h
        rw [List.length_append] at hlen
        simp only [List.length_cons, List.length_nil] at hlen
        have hne := decChars_ne_nil f1 (n / 10) (by omega)
        have hzero : (decChars f1 (n / 10)).length = 0 := by omega
        exact hne (List.length_eq_zero.mp hzero)
      · rw [if_neg h10n, if_neg h10m] at h
        obtain ⟨hpre, hlast⟩ := List.append_inj' h rfl
        simp only [List.cons.injEq, and_true] at hlast
        have hdiv : n / 10 = m / 10 :=
          ih (n / 10) f2 (m / 10) (by omega) (by omega) hpre
        have hmod : n % 10 = m % 10 :=
          digitChar_inj _ _ (by omega) (by omega) hlast
        omega

theorem natToString_inj (n m : Nat) (h : natToString n = natToString m) : n = m :=
  decChars_inj (n + 1) n (m + 1) m (by omega) (by omega) (congrArg String.data h)

theorem natToString_one_digit (n : Nat) (h : n < 10) :
    (natToString n).data = [digitChar n] := by
  show decChars (n + 1) n = _
  simp only [decChars]
  rw [if_pos h]

theorem decChars_two_digit (f n : Nat) (h1 : 10 ≤ n) (h2 : n < 100) (hf : n < f) :
    decChars f n = [digitChar (n / 10), digitChar (n % 10)] := by
  cases f with
  | zero => omega
  | succ f' =>
    simp only [decChars]
    rw [if_neg (by omega)]
    cases f' with
    | zero => omega
    | succ f'' =>
      simp only [decChars]
      rw [if_pos (by omega)]
      rfl

theorem pad2_data_small (n : Nat) (h : n < 10) : (pad2 n).data = ['0', digitChar n] := by
  unfold pad2
  rw [if_pos h, String.data_append, natToString_one_digit n h]
  rfl

theorem pad2_data_large (n : Nat) (h1 : 10 ≤ n) (h2 : n < 100) :
    (pad2 n).data = [digitChar (n / 10), digitChar (n % 10)] := by
  unfold pad2
  rw [if_neg (by omega)]
  exact decChars_two_digit (n + 1) n h1 h2 (by omega)

theorem pad2_length (n : Nat) (h : n < 100) : (pad2 n).data.length = 2 := by
  by_cases h10 : n < 10
  · rw [pad2_data_small n h10]; rfl
  · rw [pad2_data_large n (by omega) h]; rfl

theorem pad2_inj (n m : Nat) (hn : n < 100) (hm : m < 100) (h : (pad2 n).data = (pad2 m).data) :
    n = m := by
  by_cases h10n : n < 10 <;> by_cases h10m : m < 10
  · rw [pad2_data_small n h10n, pad2_data_small m h10m] at h
    simp only [List.cons.injEq, and_true, true_and] at h
    exact digitChar_inj n m h10n h10m h
  · rw [pad2_data_small n h10n, pad2_data_large m (by omega) hm] at h
    simp only [List.cons.injEq, and_true] at h
    exact absurd h.1.symm (digitChar_ne_zero (m / 10) (by omega) (by omega))
  · rw [pad2_data_large n (by omega) hn, pad2_data_small m h10m] at h
    simp only [List.cons.injEq, and_true] at h
    exact absurd h.1 (digitChar_ne_zero (n / 10) (by omega) (by omega))
  · rw [pad2_data_large n (by omega) hn, pad2_data_large m (by omega) hm] at h
    simp only [List.cons.injEq, and_true] at h
    obtain ⟨hdiv, hmod⟩ := h
    have h1 := digitChar_inj _ _ (by omega) (by omega) hdiv
    have h2 := digitChar_inj _ _ (by omega) (by omega) hmod
    omega

theorem pad2_no_newline (n : Nat) : '\n' ∉ (pad2 n).data := by
  unfold pad2
  split
  · intro hmem
    rw [String.data_append] at hmem
    rcases List.mem_append.mp hmem with hm | hm
    · have : ("0" : String).data = ['0'] := rfl
      rw [this] at hm
      simp only [List.mem_singleton] at hm
      cases hm
    · exact decChars_no_newline _ _ hm
  · intro hmem
    exact decChars_no_newline _ _ hmem

/-! ## Timestamp structure and injectivity -/

/-- Realistic field bounds under which the `MM`, `DD`, `HH`, `MM`
components of a timestamp render as exactly two characters. -/
def validTime (t : LocalTime) : Prop :=
  t.month < 100 ∧ t.day < 100 ∧ t.hour < 100 ∧ t.minute < 100

theorem timestampString_data (t : LocalTime) :
    (timestampString t).data =
      (natToString t.year).data ++
        '-' :: ((pad2 t.month).data ++
          '-' :: ((pad2 t.day).data ++
            ' ' :: ((pad2 t.hour).data ++ ':' :: (pad2 t.minute).data))) := by
  unfold timestampString
  have h1 : ("-" : String).data = ['-'] := rfl
  have h2 : (" " : String).data = [' '] := rfl
  have h3 : (":" : String).data = [':'] := rfl
  simp only [String.data_append, h1, h2, h3, List.append_assoc, List.singleton_append,
    List.cons_append, List.nil_append]

theorem timestampString_no_newline (t : LocalTime) : '\n' ∉ (timestampString t).data := by
  rw [timestampString_data]
  intro hmem
  rcases List.mem_append.mp hmem with h | h
  · exact decChars_no_newline _ _ h
  rcases List.mem_cons.mp h with h | h
  · exact absurd h (by decide)
  rcases List.mem_append.mp h with h | h
  · exact pad2_no_newline _ h
  rcases List.mem_cons.mp h with h | h
  · exact absurd h (by decide)
  rcases List.mem_append.mp h with h | h
  · exact pad2_no_newline _ h
  rcases List.mem_cons.mp h with h | h
  · exact absurd h (by decide)
  rcases List.mem_append.mp h with h | h
  · exact pad2_no_newline _ h
  rcases List.mem_cons.mp h with h | h
  · exact absurd h (by decide)
  exact pad2_no_newline _ h

theorem timestampString_inj (t1 t2 : LocalTime) (v1 : validTime t1) (v2 : validTime t2)
    (h : timestampString t1 = timestampString t2) : t1 = t2 := by
  obtain ⟨hm1, hd1, hh1, hmi1⟩ := v1
  obtain ⟨hm2, hd2, hh2, hmi2⟩ := v2
  have hdata := congrArg String.data h
  rw [timestampString_data, timestampString_data] at hdata
  have hlen : ('-' :: ((pad2 t1.month).data ++
        '-' :: ((pad2 t1.day).data ++
          ' ' :: ((pad2 t1.hour).data ++ ':' :: (pad2 t1.minute).data)))).length =
      ('-' :: ((pad2 t2.month).data ++
        '-' :: ((pad2 t2.day).data ++
          ' ' :: ((pad2 t2.hour).data ++ ':' :: (pad2 t2.minute).data)))).length := by
    simp only [List.length_cons, List.length_append,
      pad2_length t1.month hm1, pad2_length t1.day hd1,
      pad2_length t1.hour hh1, pad2_length t1.minute hmi1,
      pad2_length t2.month hm2, pad2_length t2.day hd2,
      pad2_length t2.hour hh2, pad2_length t2.minute hmi2]
  obtain ⟨hyear, htail⟩ := List.append_inj' hdata hlen
  have hy : t1.year = t2.year := natToString_inj _ _ (String.ext hyear)
  simp only [List.cons.injEq, true_and] at htail
  obtain ⟨hmon, htail2⟩ := List.append_inj htail
    ((pad2_length t1.month hm1).trans (pad2_length t2.month hm2).symm)
  have hmo : t1.month = t2.month := pad2_inj _ _ hm1 hm2 hmon
  simp only [List.cons.injEq, true_and] at htail2
  obtain ⟨hday, htail3⟩ := List.append_inj htail2
    ((pad2_length t1.day hd1).trans (pad2_length t2.day hd2).symm)
  have hda : t1.day = t2.day := pad2_inj _ _ hd1 hd2 hday
  simp only [List.cons.injEq, true_and] at htail3
  obtain ⟨hhour, htail4⟩ := List.append_inj htail3
    ((pad2_length t1.hour hh1).trans (pad2_length t2.hour hh2).symm)
  have hho : t1.hour = t2.hour := pad2_inj _ _ hh1 hh2 hhour
  simp only [List.cons.injEq, true_and] at htail4
  have hmi : t1.minute = t2.minute := pad2_inj _ _ hmi1 hmi2 htail4
  cases t1
  cases t2
  simp_all

/-! ## Frontmatter line extraction -/

theorem splitChar_append_cons (c : Char) (a b : List Char) (h : c ∉ a) :
    splitChar c (a ++ c :: b) = a :: splitChar c b := by
  induction a with
  | nil => simp [splitChar]
  | cons x t ih =>
    have hx : x ≠ c := fun e => h (e ▸ List.mem_cons_self x t)
    have ht : c ∉ t := fun hm => h (List.mem_cons_of_mem _ hm)
    simp only [List.cons_append, splitChar, List.append_eq]
    rw [if_neg hx, ih ht]

/-- Line `i` of a note content (JS `content.split('\n')[i]`). -/
def lineAt (content : String) (i : Nat) : List Char :=
  (splitChar '\n' content.data).getD i []

/-- The value of the `modified:` line (line 1) of a note content. -/
def modifiedValue (content : String) : String := ⟨(lineAt content 1).drop 10⟩

/-- The value of the `created:` line (line 2) of a note content. -/
def createdValue (content : String) : String := ⟨(lineAt content 2).drop 9⟩

theorem frontmatter_content_shape (now : LocalTime) (tags : List String)
    (src : Option String) (body : String) :
    ∃ tail : List Char,
      (createYamlFrontmatter now tags src ++ "\n\n" ++ body).data =
        ("---" : String).data ++
          '\n' :: ((("modified: " : String).data ++ (timestampString now).data) ++
            '\n' :: ((("created: " : String).data ++ (timestampString now).data) ++
              '\n' :: tail)) := by
  have e1 : ("---\nmodified: " : String).data =
      ("---" : String).data ++ '\n' :: ("modified: " : String).data := rfl
  have e2 : ("\ncreated: " : String).data = '\n' :: ("created: " : String).data := rfl
  have e3 : ("\ntags: " : String).data = '\n' :: ("tags: " : String).data := rfl
  cases src with
  | none =>
    have hfm : createYamlFrontmatter now tags none =
        ("---\nmodified: " ++ timestampString now ++ "\ncreated: " ++ timestampString now ++
          "\ntags: " ++
          (if tags.length > 0 then "[" ++ joinSep ", " tags ++ "]" else "[]")) ++ "\n---" := rfl
    refine ⟨("tags: " : String).data ++
      ((if tags.length > 0 then "[" ++ joinSep ", " tags ++ "]" else "[]") : String).data ++
      ("\n---" : String).data ++ ("\n\n" : String).data ++ body.data, ?_⟩
    rw [hfm]
    simp only [String.data_append, e1, e2, e3, List.append_assoc, List.cons_append,
      List.nil_append]
  | some u =>
    by_cases hu : u = ""
    · have hfm : createYamlFrontmatter now tags (some u) =
          (if u = "" then
            ("---\nmodified: " ++ timestampString now ++ "\ncreated: " ++ timestampString now ++
              "\ntags: " ++
              (if tags.length > 0 then "[" ++ joinSep ", " tags ++ "]" else "[]"))
           else
            ("---\nmodified: " ++ timestampString now ++ "\ncreated: " ++ timestampString now ++
              "\ntags: " ++
              (if tags.length > 0 then "[" ++ joinSep ", " tags ++ "]" else "[]")) ++
              "\nsources: \"[Website](" ++ u ++ ")\"") ++ "\n---" := rfl
      refine ⟨("tags: " : String).data ++
        ((if tags.length > 0 then "[" ++ joinSep ", " tags ++ "]" else "[]") : String).data ++
        ("\n---" : String).data ++ ("\n\n" : String).data ++ body.data, ?_⟩
      rw [hfm, if_pos hu]
      simp only [String.data_append, e1, e2, e3, List.append_assoc, List.cons_append,
        List.nil_append]
    · have hfm : createYamlFrontmatter now tags (some u) =
          (if u = "" then
            ("---\nmodified: " ++ timestampString now ++ "\ncreated: " ++ timestampString now ++
              "\ntags: " ++
              (if tags.length > 0 then "[" ++ joinSep ", " tags ++ "]" else "[]"))
           else
            ("---\nmodified: " ++ timestampString now ++ "\ncreated: " ++ timestampString now ++
              "\ntags: " ++
              (if tags.length > 0 then "[" ++ joinSep ", " tags ++ "]" else "[]")) ++
              "\nsources: \"[Website](" ++ u ++ ")\"") ++ "\n---" := rfl
      refine ⟨("tags: " : String).data ++
        ((if tags.length > 0 then "[" ++ joinSep ", " tags ++ "]" else "[]") : String).data ++
        ("\nsources: \"[Website](" : String).data ++ u.data ++ (")\"" : String).data ++
        ("\n---" : String).data ++ ("\n\n" : String).data ++ body.data, ?_⟩
      rw [hfm, if_neg hu]
      simp only [String.data_append, e1, e2, e3, List.append_assoc, List.cons_append,
        List.nil_append]

theorem modifiedValue_of_content (now : LocalTime) (tags : List String)
    (src : Option String) (body : String) :
    modifiedValue (createYamlFrontmatter now tags src ++ "\n\n" ++ body) =
        timestampString now ∧
    createdValue (createYamlFrontmatter now tags src ++ "\n\n" ++ body) =
        timestampString now := by
  obtain ⟨tail, hform⟩ := frontmatter_content_shape now tags src body
  have h0 : '\n' ∉ ("---" : String).data := by decide
  have hm : '\n' ∉ ("modified: " : String).data ++ (timestampString now).data := by
    intro hmem
    rcases List.mem_append.mp hmem with h | h
    · exact absurd h (by decide)
    · exact timestampString_no_newline now h
  have hc : '\n' ∉ ("created: " : String).data ++ (timestampString now).data := by
    intro hmem
    rcases List.mem_append.mp hmem with h | h
    · exact absurd h (by decide)
    · exact timestampString_no_newline now h
  have hlines : splitChar '\n' (createYamlFrontmatter now tags src ++ "\n\n" ++ body).data =
      ("---" : String).data ::
        (("modified: " : String).data ++ (timestampString now).data) ::
        (("created: " : String).data ++ (timestampString now).data) ::
        splitChar '\n' tail := by
    rw [hform, splitChar_append_cons _ _ _ h0, splitChar_append_cons _ _ _ hm,
      splitChar_append_cons _ _ _ hc]
  constructor
  · unfold modifiedValue lineAt
    rw [hlines]
    simp only [List.getD_cons_succ, List.getD_cons_zero]
    rw [show (10 : Nat) = ("modified: " : String).data.length from rfl, List.drop_left]
  · unfold createdValue lineAt
    rw [hlines]
    simp only [List.getD_cons_succ, List.getD_cons_zero]
    rw [show (9 : Nat) = ("created: " : String).data.length from rfl, List.drop_left]

/-! ## Claim C10: the two-phase write regenerates timestamps -/

/-- The two writes of src/main.ts:443 and 454-456 for a URL clip with
image downloads enabled: the first write at clock reading `t1`, the
rewrite at clock reading `t2` with the image-localized content; the
rewrite calls `createYamlFrontmatter` again (src/main.ts:454), reading
the clock anew. -/
def twoPhaseContents (t1 t2 : LocalTime) (tags : List String) (sourceUrl : String)
    (content contentWithLocalImages : String) : String × String :=
  (createYamlFrontmatter t1 tags (some sourceUrl) ++ "\n\n" ++ content,
   createYamlFrontmatter t2 tags (some sourceUrl) ++ "\n\n" ++ contentWithLocalImages)

/-- C10: the second write's content is rebuilt from the rewrite-time
clock alone (conjuncts 1 and 2: it equals a fresh frontmatter at `t2`
and does not depend on the first write's clock), its `modified` and
`created` values are the rewrite-time timestamp (conjuncts 3 and 4),
and whenever the rewrite happens at a different minute the final
`modified` value differs from the first write's (conjunct 5) — the
timestamps are regenerated, not preserved. -/
theorem rewriteTimestamps_regenerated (t1 t1' t2 : LocalTime) (tags : List String)
    (src : String) (c c' : String) :
    (twoPhaseContents t1 t2 tags src c c').2 =
      createYamlFrontmatter t2 tags (some src) ++ "\n\n" ++ c' ∧
    (twoPhaseContents t1 t2 tags src c c').2 = (twoPhaseContents t1' t2 tags src c c').2 ∧
    modifiedValue (twoPhaseContents t1 t2 tags src c c').2 = timestampString t2 ∧
    createdValue (twoPhaseContents t1 t2 tags src c c').2 = timestampString t2 ∧
    (validTime t1 → validTime t2 → t1 ≠ t2 →
      modifiedValue (twoPhaseContents t1 t2 tags src c c').2 ≠
        modifiedValue (twoPhaseContents t1 t2 tags src c c').1) := by
  refine ⟨rfl, rfl, (modifiedValue_of_content t2 tags (some src) c').1,
    (modifiedValue_of_content t2 tags (some src) c').2, ?_⟩
  intro hv1 hv2 hne heq
  have h2 : modifiedValue (twoPhaseContents t1 t2 tags src c c').2 = timestampString t2 :=
    (modifiedValue_of_content t2 tags (some src) c').1
  have h1 : modifiedValue (twoPhaseContents t1 t2 tags src c c').1 = timestampString t1 :=
    (modifiedValue_of_content t1 tags (some src) c).1
  rw [h1, h2] at heq
  exact hne (timestampString_inj t1 t2 hv1 hv2 heq.symm)

/-- Witness for C10: a rewrite one minute later changes the `modified`
value. -/
theorem rewriteTimestamps_regenerated_witness :
    modifiedValue (twoPhaseContents ⟨2025, 1, 1, 0, 0⟩ ⟨2025, 1, 1, 0, 1⟩ [] "u" "b" "b2").2 ≠
      modifiedValue (twoPhaseContents ⟨2025, 1, 1, 0, 0⟩ ⟨2025, 1, 1, 0, 1⟩ [] "u" "b" "b2").1 :=
  (rewriteTimestamps_regenerated ⟨2025, 1, 1, 0, 0⟩ ⟨2025, 1, 1, 0, 0⟩ ⟨2025, 1, 1, 0, 1⟩
    [] "u" "b" "b2").2.2.2.2 ⟨by decide, by decide, by decide, by decide⟩
    ⟨by decide, by decide, by decide, by decide⟩ (by decide)

/-! ## Documents of interleaved text and image references

The absolutize pass is characterized over whole Markdown documents
assembled from inert text segments and image references. -/

/-- Assemble a Markdown document from `(text, alt, url)` items followed
by a final text segment: `s₀ ![a₁](u₁) s₁ ![a₂](u₂) … sₙ`. -/
def assembleDoc : List (String × String × String) → String → String
  | [], lastSeg => lastSeg
  | (s, a, u) :: rest, lastSeg => s ++ mkImageRef a u ++ assembleDoc rest lastSeg

/-- The per-reference rewrite of the claim: a skipped or failing URL is
kept, any other URL becomes its resolution against the base. -/
def rewriteUrl (u baseUrl : String) : String :=
  match absolutizeImageUrl u baseUrl with
  | none => u
  | some absUrl => absUrl

/-- Rewrite every reference of a document in place, leaving text
segments and alt texts unchanged. -/
def rewriteItems (baseUrl : String) (items : List (String × String × String)) :
    List (String × String × String) :=
  items.map (fun it => (it.1, it.2.1, rewriteUrl it.2.2 baseUrl))

/-- Textual unambiguity of one `(text, alt, url)` item: no stray `!` in
the text segment, alt text or URL; the alt text is `]`-free; the URL is
nonempty, `)`-free, and either carries one of the four skipped prefixes
or is colon-free (a genuinely relative reference). -/
def itemOk (it : String × String × String) : Prop :=
  '!' ∉ it.1.data ∧ ']' ∉ it.2.1.data ∧ '!' ∉ it.2.1.data ∧
  it.2.2 ≠ "" ∧ ')' ∉ it.2.2.data ∧ '!' ∉ it.2.2.data ∧
  (strStarts it.2.2 "http://" = true ∨ strStarts it.2.2 "https://" = true ∨
   strStarts it.2.2 "data:" = true ∨ strStarts it.2.2 "blob:" = true ∨
   ':' ∉ it.2.2.data)

/-- Textual unambiguity of a whole document: every item is `itemOk`,
the final text segment has no stray `!`, and the base URL is `!`- and
`)`-free.  Without these provisos the pass can replace the wrong span
(see the counterexample). -/
def docOk (baseUrl lastSeg : String) (items : List (String × String × String)) : Prop :=
  '!' ∉ baseUrl.data ∧ ')' ∉ baseUrl.data ∧ '!' ∉ lastSeg.data ∧ ∀ it ∈ items, itemOk it

/-- The `(alt, url)` pairs of a document's references, in order. -/
def itemRefs (items : List (String × String × String)) : List (List Char × List Char) :=
  items.map (fun it => (it.2.1.data, it.2.2.data))

/-- The replacement pairs the pass computes for a document: one
`(original span, rewritten span)` per reference whose URL is neither
skipped nor failing. -/
def repsOf (baseUrl : String) (items : List (String × String × String)) :
    List (String × String) :=
  items.filterMap (fun it =>
    match absolutizeImageUrl it.2.2 baseUrl with
    | none => none
    | some absUrl => some (mkImageRef it.2.1 it.2.2, mkImageRef it.2.1 absUrl))

/-! ## Scanning a document -/

theorem scanFuel_cons_ne (f : Nat) (c : Char) (l : List Char) (hc : c ≠ '!') :
    scanFuel (f + 1) (c :: l) = scanFuel f l := by
  rw [scanFuel]
  intro rest h1 _
  exact hc h1

theorem scanFuel_append_inert (s : List Char) (hs : '!' ∉ s) :
    ∀ (f : Nat) (r : List Char), scanFuel (s.length + f) (s ++ r) = scanFuel f r := by
  induction s with
  | nil =>
    intro f r
    rw [List.length_nil, Nat.zero_add, List.nil_append]
  | cons c t ih =>
    intro f r
    have hc : c ≠ '!' := fun e => hs (e ▸ List.mem_cons_self c t)
    have ht : '!' ∉ t := fun hm => hs (List.mem_cons_of_mem _ hm)
    have hlen : (c :: t).length + f = (t.length + f) + 1 := by
      simp only [List.length_cons]
      omega
    rw [List.cons_append, hlen, scanFuel_cons_ne _ _ _ hc, ih ht]

theorem scanFuel_ref_cons (f : Nat) (alt url tail : List Char)
    (h1 : ']' ∉ alt) (h2 : ')' ∉ url) (h3 : url ≠ []) :
    scanFuel (f + 1) ('!' :: '[' :: (alt ++ ']' :: '(' :: (url ++ ')' :: tail))) =
      (alt, url) :: scanFuel f tail := by
  have hta := takeUntil_append ']' alt ('(' :: (url ++ ')' :: tail)) h1
  have htb := takeUntil_append ')' url tail h2
  have hempty : url.isEmpty = false := by
    cases url with
    | nil => exact absurd rfl h3
    | cons a t => rfl
  simp [scanFuel, hta, htb, hempty]

theorem assembleDoc_data_cons (s a u : String) (rest : List (String × String × String))
    (lastSeg : String) :
    (assembleDoc ((s, a, u) :: rest) lastSeg).data =
      s.data ++ ('!' :: '[' :: (a.data ++ ']' :: '(' ::
        (u.data ++ ')' :: (assembleDoc rest lastSeg).data))) := by
  show (s ++ mkImageRef a u ++ assembleDoc rest lastSeg).data = _
  simp only [String.data_append]
  rw [show (mkImageRef a u).data =
    '!' :: '[' :: (a.data ++ ']' :: '(' :: (u.data ++ [')'])) from rfl]
  simp [List.append_assoc, List.cons_append, List.singleton_append]

theorem assembleDoc_data_group (s a u : String) (rest : List (String × String × String))
    (lastSeg : String) :
    (assembleDoc ((s, a, u) :: rest) lastSeg).data =
      (s.data ++ (mkImageRef a u).data) ++ (assembleDoc rest lastSeg).data := by
  rw [assembleDoc_data_cons]
  rw [show (mkImageRef a u).data =
    '!' :: '[' :: (a.data ++ ']' :: '(' :: (u.data ++ [')'])) from rfl]
  simp [List.append_assoc, List.cons_append, List.singleton_append]

theorem scanFuel_assembleDoc (items : List (String × String × String)) :
    ∀ (lastSeg : String) (f : Nat),
      '!' ∉ lastSeg.data →
      (∀ it ∈ items, '!' ∉ it.1.data ∧ ']' ∉ it.2.1.data ∧ ')' ∉ it.2.2.data ∧ it.2.2 ≠ "") →
      scanFuel ((assembleDoc items lastSeg).data.length + f) (assembleDoc items lastSeg).data =
        itemRefs items := by
  induction items with
  | nil =>
    intro lastSeg f hlast _
    show scanFuel (lastSeg.data.length + f) lastSeg.data = []
    have h := scanFuel_append_inert lastSeg.data hlast f []
    rw [List.append_nil] at h
    rw [h, scanFuel_nil]
  | cons it rest ih =>
    intro lastSeg f hlast hall
    obtain ⟨s, a, u⟩ := it
    obtain ⟨hs, ha, hu, hne⟩ := hall (s, a, u) (List.mem_cons_self _ _)
    have hrest := fun it hm => hall it (List.mem_cons_of_mem _ hm)
    have hne' : u.data ≠ [] := fun he => hne (String.ext (he.trans rfl))
    rw [assembleDoc_data_cons]
    set A := (assembleDoc rest lastSeg).data with hA
    set mid := a.data ++ ']' :: '(' :: (u.data ++ ')' :: A) with hmid
    have hlen1 : (s.data ++ ('!' :: '[' :: mid)).length + f =
        s.data.length + ((('!' :: '[' :: mid).length) + f) := by
      simp only [List.length_append]
      omega
    rw [hlen1, scanFuel_append_inert s.data hs]
    have hlen2 : ('!' :: '[' :: mid).length + f = (mid.length + f + 1) + 1 := by
      simp only [List.length_cons]
      omega
    rw [hlen2, hmid, scanFuel_ref_cons _ a.data u.data A ha hu hne']
    have hlen3 : mid.length + f + 1 = A.length + (a.data.length + u.data.length + f + 4) := by
      rw [hmid]
      simp only [List.length_append, List.length_cons]
      omega
    rw [hmid] at hlen3
    rw [hlen3, hA, ih lastSeg (a.data.length + u.data.length + f + 4) hlast hrest]
    rfl

theorem scanImages_assembleDoc (items : List (String × String × String))
    (lastSeg : String) (hlast : '!' ∉ lastSeg.data)
    (hall : ∀ it ∈ items, '!' ∉ it.1.data ∧ ']' ∉ it.2.1.data ∧ ')' ∉ it.2.2.data ∧ it.2.2 ≠ "") :
    scanImages (assembleDoc items lastSeg).data = itemRefs items := by
  have h := scanFuel_assembleDoc items lastSeg 0 hlast hall
  rw [Nat.add_zero] at h
  exact h

/-! ## First-occurrence replacement over a document -/

/-- `pat` matches nowhere strictly inside `P` (at no start position
`< P.length`), whatever text follows `P`. -/
def noSpanStart (pat P : List Char) : Prop :=
  ∀ (i : Nat) (Q : List Char), i < P.length → pat.isPrefixOf (P.drop i ++ Q) = false

/-- Apply a list of `(pattern, replacement)` pairs in order, each by
first-occurrence replacement. -/
def applyReps (reps : List (String × String)) (l : List Char) : List Char :=
  reps.foldl (fun acc pr => replaceFirstAux pr.1.data pr.2.data acc) l

theorem applyReps_nil (l : List Char) : applyReps [] l = l := rfl

theorem applyReps_cons (pr : String × String) (reps : List (String × String)) (l : List Char) :
    applyReps (pr :: reps) l = applyReps reps (replaceFirstAux pr.1.data pr.2.data l) := rfl

theorem foldl_replaceFirst_data (reps : List (String × String)) (s : String) :
    (reps.foldl (fun acc pr => replaceFirst acc pr.1 pr.2) s).data = applyReps reps s.data := by
  induction reps generalizing s with
  | nil => rfl
  | cons pr rest ih => exact ih (replaceFirst s pr.1 pr.2)

theorem splitAtFirst_eq (c : Char) :
    ∀ (a1 a2 r1 r2 : List Char), c ∉ a1 → c ∉ a2 →
      a1 ++ c :: r1 = a2 ++ c :: r2 → a1 = a2 ∧ r1 = r2 := by
  intro a1
  induction a1 with
  | nil =>
    intro a2 r1 r2 _ h2 heq
    cases a2 with
    | nil =>
      rw [List.nil_append, List.nil_append] at heq
      exact ⟨rfl, (List.cons.injEq _ _ _ _ ▸ heq).2⟩
    | cons b t =>
      rw [List.nil_append, List.cons_append] at heq
      have hcb : c = b := (List.cons.injEq _ _ _ _ ▸ heq).1
      exact absurd (hcb ▸ List.mem_cons_self b t) h2
  | cons x t1 ih =>
    intro a2 r1 r2 h1 h2 heq
    cases a2 with
    | nil =>
      rw [List.cons_append, List.nil_append] at heq
      have hxc : x = c := (List.cons.injEq _ _ _ _ ▸ heq).1
      exact absurd (hxc ▸ List.mem_cons_self x t1) (fun hm => h1 hm)
    | cons b t2 =>
      rw [List.cons_append, List.cons_append] at heq
      have hxb : x = b := (List.cons.injEq _ _ _ _ ▸ heq).1
      have htail : t1 ++ c :: r1 = t2 ++ c :: r2 := (List.cons.injEq _ _ _ _ ▸ heq).2
      have h1' : c ∉ t1 := fun hm => h1 (List.mem_cons_of_mem _ hm)
      have h2' : c ∉ t2 := fun hm => h2 (List.mem_cons_of_mem _ hm)
      obtain ⟨he1, he2⟩ := ih t2 r1 r2 h1' h2' htail
      exact ⟨by rw [hxb, he1], he2⟩

theorem mkImageRef_prefix_eq (a1 u1 a2 u2 : String) (Q : List Char)
    (h1 : ']' ∉ a1.data) (h2 : ']' ∉ a2.data) (h3 : ')' ∉ u1.data) (h4 : ')' ∉ u2.data)
    (hpre : (mkImageRef a1 u1).data.isPrefixOf ((mkImageRef a2 u2).data ++ Q) = true) :
    a1 = a2 ∧ u1 = u2 := by
  rw [List.isPrefixOf_iff_prefix] at hpre
  obtain ⟨T, hT⟩ := hpre
  have hT' : a1.data ++ ']' :: ('(' :: (u1.data ++ ')' :: T)) =
      a2.data ++ ']' :: ('(' :: (u2.data ++ ')' :: Q)) := by
    have h0 : ('!' :: '[' :: (a1.data ++ ']' :: '(' :: (u1.data ++ [')']))) ++ T =
        ('!' :: '[' :: (a2.data ++ ']' :: '(' :: (u2.data ++ [')']))) ++ Q := hT
    simp only [List.cons_append, List.append_assoc, List.singleton_append,
      List.cons.injEq, true_and] at h0
    simpa using h0
  obtain ⟨ha, hrest⟩ := splitAtFirst_eq ']' _ _ _ _ h1 h2 hT'
  have hrest2 : u1.data ++ ')' :: T = u2.data ++ ')' :: Q :=
    (List.cons.injEq _ _ _ _ ▸ hrest).2
  obtain ⟨hu, _⟩ := splitAtFirst_eq ')' _ _ _ _ h3 h4 hrest2
  exact ⟨String.ext ha, String.ext hu⟩

theorem noSpanStart_append (pat P1 P2 : List Char)
    (hp1 : noSpanStart pat P1) (hp2 : noSpanStart pat P2) :
    noSpanStart pat (P1 ++ P2) := by
  intro i Q hi
  by_cases hcase : i < P1.length
  · rw [List.drop_append_of_le_length (Nat.le_of_lt hcase), List.append_assoc]
    exact hp1 i (P2 ++ Q) hcase
  · have hj : i = P1.length + (i - P1.length) := by omega
    rw [hj, List.drop_append]
    apply hp2
    rw [List.length_append] at hi
    omega

theorem noSpanStart_of_bang (pt P : List Char) (hP : '!' ∉ P) :
    noSpanStart ('!' :: pt) P := by
  intro i Q hi
  rw [List.drop_eq_getElem_cons hi, List.cons_append]
  have hmem : P[i] ∈ P := List.getElem_mem hi
  have hne : ('!' == P[i]) = false :=
    beq_eq_false_iff_ne.mpr (fun e => hP (e ▸ hmem))
  simp [List.isPrefixOf, hne]

theorem noSpanStart_cons_tail (pat : List Char) (c : Char) (t : List Char)
    (h : noSpanStart pat (c :: t)) : noSpanStart pat t := by
  intro i Q hi
  have hi' : i + 1 < (c :: t).length := by
    rw [List.length_cons]; omega
  have := h (i + 1) Q hi'
  rwa [List.drop_succ_cons] at this

theorem replaceFirstAux_append_of_noSpanStart (pat rep : List Char) :
    ∀ (A B : List Char), noSpanStart pat A →
      replaceFirstAux pat rep (A ++ B) = A ++ replaceFirstAux pat rep B := by
  intro A
  induction A with
  | nil => intro B _; rw [List.nil_append, List.nil_append]
  | cons c t ih =>
    intro B h
    have hpre : pat.isPrefixOf (c :: (t ++ B)) = false := by
      have h0 := h 0 B (by rw [List.length_cons]; omega)
      rwa [List.drop_zero, List.cons_append] at h0
    rw [List.cons_append, replaceFirstAux, if_neg (by rw [hpre]; exact Bool.false_ne_true),
      ih B (noSpanStart_cons_tail pat c t h), List.cons_append]

theorem replaceFirstAux_head (pat rep A : List Char) (h : pat ≠ []) :
    replaceFirstAux pat rep (pat ++ A) = rep ++ A := by
  cases pat with
  | nil => exact absurd rfl h
  | cons c t =>
    have hpre : (c :: t).isPrefixOf (c :: (t ++ A)) = true :=
      List.isPrefixOf_iff_prefix.mpr ⟨A, by rw [List.cons_append]⟩
    rw [List.cons_append, replaceFirstAux, if_pos hpre, List.length_cons,
      List.drop_succ_cons, List.drop_left]

theorem applyReps_append : ∀ (reps : List (String × String)) (A B : List Char),
    (∀ pr ∈ reps, noSpanStart pr.1.data A) →
    applyReps reps (A ++ B) = A ++ applyReps reps B := by
  intro reps
  induction reps with
  | nil => intro A B _; rfl
  | cons pr rest ih =>
    intro A B h
    rw [applyReps_cons,
      replaceFirstAux_append_of_noSpanStart _ _ A B (h pr (List.mem_cons_self _ _)),
      applyReps_cons]
    exact ih A (replaceFirstAux pr.1.data pr.2.data B)
      (fun q hq => h q (List.mem_cons_of_mem _ hq))

/-! ## Character tracking through URL resolution -/

theorem not_mem_takeWhile (c : Char) (p : Char → Bool) (l : List Char) (h : c ∉ l) :
    c ∉ l.takeWhile p := fun hm => h ((List.takeWhile_sublist p).subset hm)

theorem not_mem_dropWhile (c : Char) (p : Char → Bool) (l : List Char) (h : c ∉ l) :
    c ∉ l.dropWhile p := fun hm => h ((List.dropWhile_sublist p).subset hm)

theorem schemeSplitGo_chars (c : Char) :
    ∀ (l acc sch rest : List Char), schemeSplitGo acc l = some (sch, rest) →
      c ∉ acc → c ∉ l → c ∉ sch ∧ c ∉ rest := by
  intro l
  induction l with
  | nil => intro acc sch rest h _ _; exact Option.noConfusion h
  | cons x t ih =>
    intro acc sch rest h hacc hl
    have hx : c ≠ x := fun e => hl (e ▸ List.mem_cons_self x t)
    have ht : c ∉ t := fun hm => hl (List.mem_cons_of_mem _ hm)
    rw [schemeSplitGo] at h
    by_cases hcol : x = ':'
    · rw [if_pos hcol] at h
      have h1 : acc.reverse = sch := (Prod.mk.injEq _ _ _ _ ▸ (Option.some.injEq _ _ ▸ h)).1
      have h2 : t = rest := (Prod.mk.injEq _ _ _ _ ▸ (Option.some.injEq _ _ ▸ h)).2
      exact ⟨h1 ▸ (fun hm => hacc (List.mem_reverse.mp hm)), h2 ▸ ht⟩
    · rw [if_neg hcol] at h
      by_cases hst : isSchemeTail x = true
      · rw [if_pos hst] at h
        have hacc' : c ∉ x :: acc := by
          intro hm
          rcases List.mem_cons.mp hm with he | hm2
          · exact hx he
          · exact hacc hm2
        exact ih (x :: acc) sch rest h hacc' ht
      · rw [if_neg hst] at h
        exact Option.noConfusion h

theorem schemeSplit_chars (c : Char) (l sch rest : List Char)
    (h : schemeSplit l = some (sch, rest)) (hl : c ∉ l) : c ∉ sch ∧ c ∉ rest := by
  cases l with
  | nil => exact Option.noConfusion h
  | cons x t =>
    rw [schemeSplit] at h
    by_cases ha : x.isAlpha = true
    · rw [if_pos ha] at h
      have hx : c ≠ x := fun e => hl (e ▸ List.mem_cons_self x t)
      have ht : c ∉ t := fun hm => hl (List.mem_cons_of_mem _ hm)
      exact schemeSplitGo_chars c t [x] sch rest h
        (fun hm => hx (List.mem_singleton.mp hm)) ht
    · rw [if_neg ha] at h
      exact Option.noConfusion h

theorem schemeSplitGo_eq_none :
    ∀ (l : List Char), ':' ∉ l → ∀ acc, schemeSplitGo acc l = none := by
  intro l
  induction l with
  | nil => intro _ acc; rfl
  | cons x t ih =>
    intro h acc
    have hx : ¬(x = ':') := fun e => h (e ▸ List.mem_cons_self x t)
    have ht : ':' ∉ t := fun hm => h (List.mem_cons_of_mem _ hm)
    rw [schemeSplitGo, if_neg hx]
    by_cases hst : isSchemeTail x = true
    · rw [if_pos hst]; exact ih ht (x :: acc)
    · rw [if_neg hst]

theorem schemeSplit_eq_none (l : List Char) (h : ':' ∉ l) : schemeSplit l = none := by
  cases l with
  | nil => rfl
  | cons x t =>
    rw [schemeSplit]
    by_cases ha : x.isAlpha = true
    · rw [if_pos ha]
      exact schemeSplitGo_eq_none t (fun hm => h (List.mem_cons_of_mem _ hm)) [x]
    · rw [if_neg ha]

theorem popSegment_subset (c : Char) (out : List Char) (h : c ∉ out) : c ∉ popSegment out := by
  intro hm
  unfold popSegment at hm
  exact h (List.mem_reverse.mp
    ((List.dropWhile_sublist _).subset (List.drop_subset 1 _ (List.mem_reverse.mp hm))))

theorem rdsGo_chars (c : Char) (hslash : c ≠ '/') :
    ∀ (fuel : Nat) (input out : List Char), c ∉ input → c ∉ out → c ∉ rdsGo fuel input out := by
  intro fuel
  induction fuel with
  | zero =>
    intro input out hin hout hm
    rcases List.mem_append.mp hm with h | h
    · exact hout h
    · exact hin h
  | succ n ih =>
    intro input out hin hout
    unfold rdsGo
    split
    · exact hout
    · refine ih _ _ ?_ hout
      intro hm
      exact hin (by simp [List.mem_cons, hm])
    · refine ih _ _ ?_ hout
      intro hm
      exact hin (by simp [List.mem_cons, hm])
    · refine ih _ _ ?_ hout
      intro hm
      rcases List.mem_cons.mp hm with he | hm2
      · exact hslash he
      · exact hin (by simp [List.mem_cons, hm2])
    · refine ih _ _ ?_ hout
      intro hm
      rcases List.mem_cons.mp hm with he | hm2
      · exact hslash he
      · exact absurd hm2 (List.not_mem_nil c)
    · refine ih _ _ ?_ (popSegment_subset c out hout)
      intro hm
      rcases List.mem_cons.mp hm with he | hm2
      · exact hslash he
      · exact hin (by simp [List.mem_cons, hm2])
    · refine ih _ _ ?_ (popSegment_subset c out hout)
      intro hm
      rcases List.mem_cons.mp hm with he | hm2
      · exact hslash he
      · exact absurd hm2 (List.not_mem_nil c)
    · exact ih _ _ (List.not_mem_nil c) hout
    · exact ih _ _ (List.not_mem_nil c) hout
    · refine ih _ _ (not_mem_dropWhile c _ _ ?_) ?_
      · intro hm
        exact hin (List.mem_cons_of_mem _ hm)
      · intro hm
        rcases List.mem_append.mp hm with h | h
        · exact hout h
        · rcases List.mem_cons.mp h with he | hm2
          · exact hin (List.mem_cons.mpr (Or.inl he))
          · exact hin (List.mem_cons_of_mem _ ((List.takeWhile_sublist _).subset hm2))

theorem removeDotSegments_chars (c : Char) (hslash : c ≠ '/') (p : String)
    (h : c ∉ p.data) : c ∉ (removeDotSegments p).data :=
  rdsGo_chars c hslash (p.data.length + 1) p.data [] h (List.not_mem_nil c)

theorem upToLastSlash_subset (c : Char) (l : List Char) (h : c ∉ l) :
    c ∉ upToLastSlash l := by
  intro hm
  unfold upToLastSlash at hm
  exact h (List.mem_reverse.mp ((List.dropWhile_sublist _).subset (List.mem_reverse.mp hm)))

theorem parseBase_chars (c : Char) (base : String) (b : UrlParts)
    (h : parseBase base = some b) (hbase : c ∉ base.data) :
    c ∉ b.scheme.data ∧ c ∉ b.authority.data ∧ c ∉ b.path.data ∧
    ∀ q, b.query = some q → c ∉ q.data := by
  cases hss : schemeSplit base.data with
  | none =>
    simp only [parseBase, hss] at h
    exact Option.noConfusion h
  | some pr =>
    obtain ⟨sch, rest⟩ := pr
    obtain ⟨hsch, hrest⟩ := schemeSplit_chars c base.data sch rest hss hbase
    simp only [parseBase, hss] at h
    split at h
    · split at h
      · split at h
        · rename_i rest rest2 rest4 r heq1 r2 f heq2
          injection h with h
          subst h
          have hrest2 : c ∉ rest2 :=
            fun hm => hrest (List.mem_cons_of_mem _ (List.mem_cons_of_mem _ hm))
          have hr : c ∉ r := by
            have h1 : c ∉ List.dropWhile notPathStop (List.dropWhile notAuthStop rest2) :=
              not_mem_dropWhile c _ _ (not_mem_dropWhile c _ _ hrest2)
            rw [heq1] at h1
            exact fun hm => h1 (List.mem_cons_of_mem _ hm)
          refine ⟨hsch, not_mem_takeWhile c _ _ hrest2,
            not_mem_takeWhile c _ _ (not_mem_dropWhile c _ _ hrest2), ?_⟩
          intro q hq
          injection hq with hq
          rw [← hq]
          exact not_mem_takeWhile c _ _ hr
        · rename_i rest rest2 rest4 r heq1 r2 hx
          injection h with h
          subst h
          have hrest2 : c ∉ rest2 :=
            fun hm => hrest (List.mem_cons_of_mem _ (List.mem_cons_of_mem _ hm))
          have hr : c ∉ r := by
            have h1 : c ∉ List.dropWhile notPathStop (List.dropWhile notAuthStop rest2) :=
              not_mem_dropWhile c _ _ (not_mem_dropWhile c _ _ hrest2)
            rw [heq1] at h1
            exact fun hm => h1 (List.mem_cons_of_mem _ hm)
          refine ⟨hsch, not_mem_takeWhile c _ _ hrest2,
            not_mem_takeWhile c _ _ (not_mem_dropWhile c _ _ hrest2), ?_⟩
          intro q hq
          injection hq with hq
          rw [← hq]
          exact not_mem_takeWhile c _ _ hr
      · rename_i rest rest2 rest4 f heq1
        injection h with h
        subst h
        have hrest2 : c ∉ rest2 :=
          fun hm => hrest (List.mem_cons_of_mem _ (List.mem_cons_of_mem _ hm))
        refine ⟨hsch, not_mem_takeWhile c _ _ hrest2,
          not_mem_takeWhile c _ _ (not_mem_dropWhile c _ _ hrest2), ?_⟩
        intro q hq
        exact Option.noConfusion hq
      · rename_i rest rest2 rest4 hx1 hx2
        injection h with h
        subst h
        have hrest2 : c ∉ rest2 :=
          fun hm => hrest (List.mem_cons_of_mem _ (List.mem_cons_of_mem _ hm))
        refine ⟨hsch, not_mem_takeWhile c _ _ hrest2,
          not_mem_takeWhile c _ _ (not_mem_dropWhile c _ _ hrest2), ?_⟩
        intro q hq
        exact Option.noConfusion hq
    · exact Option.noConfusion h

theorem renderQuery_chars (c : Char) (oq : Option String) (hq : c ≠ '?')
    (h : ∀ q, oq = some q → c ∉ q.data) : c ∉ (renderQuery oq).data := by
  cases oq with
  | none => exact List.not_mem_nil c
  | some q =>
    intro hm
    rcases List.mem_cons.mp hm with he | hm2
    · exact hq he
    · exact h q rfl hm2

theorem resolveUrl_colon (ref base abs : String) (href : ':' ∉ ref.data)
    (h : resolveUrl ref base = some abs) : ':' ∈ abs.data := by
  have hsep : ':' ∈ ("://" : String).data := by decide
  cases hparse : parseBase base with
  | none =>
    simp only [resolveUrl, hparse] at h
    exact Option.noConfusion h
  | some b =>
    simp only [resolveUrl, hparse] at h
    rw [schemeSplit_eq_none ref.data href] at h
    simp only [Option.isSome_none, Bool.false_eq_true, if_false] at h
    split at h
    · rename_i x r2 heq
      injection h with h
      subst h
      simp only [String.data_append, List.mem_append]
      tauto
    · rename_i x1 tl hx heq
      injection h with h
      subst h
      simp only [String.data_append, List.mem_append]
      tauto
    · rename_i x tl heq
      injection h with h
      subst h
      simp only [String.data_append, List.mem_append]
      tauto
    · rename_i x tl heq
      injection h with h
      subst h
      simp only [String.data_append, List.mem_append]
      tauto
    · rename_i x heq
      injection h with h
      subst h
      simp only [String.data_append, List.mem_append]
      tauto
    · rename_i x5 x4 x3 x2 x1 x0
      injection h with h
      subst h
      simp only [String.data_append, List.mem_append]
      tauto

theorem resolveUrl_chars (c : Char) (ref base abs : String)
    (href : c ∉ ref.data) (hbase : c ∉ base.data)
    (hslash : c ≠ '/') (hcolon : c ≠ ':') (hq : c ≠ '?')
    (h : resolveUrl ref base = some abs) : c ∉ abs.data := by
  cases hparse : parseBase base with
  | none =>
    simp only [resolveUrl, hparse] at h
    exact Option.noConfusion h
  | some b =>
    obtain ⟨hsch, hauth, hpath, hquery⟩ := parseBase_chars c base b hparse hbase
    have hsep : c ∉ ("://" : String).data := by
      intro hm
      rcases List.mem_cons.mp hm with he | hm2
      · exact hcolon he
      · rcases List.mem_cons.mp hm2 with he | hm3
        · exact hslash he
        · rcases List.mem_cons.mp hm3 with he | hm4
          · exact hslash he
          · exact absurd hm4 (List.not_mem_nil c)
    have hrq : c ∉ (renderQuery b.query).data := renderQuery_chars c b.query hq hquery
    simp only [resolveUrl, hparse] at h
    by_cases hsome : (schemeSplit ref.data).isSome = true
    · rw [if_pos hsome] at h
      injection h with h
      subst h
      exact href
    · rw [if_neg hsome] at h
      split at h
      · rename_i x r2 heq
        injection h with h
        subst h
        rw [heq] at href
        have hr2 : c ∉ r2 :=
          fun hm => href (List.mem_cons_of_mem _ (List.mem_cons_of_mem _ hm))
        intro hm
        simp only [String.data_append, List.mem_append] at hm
        rcases hm with ((((hm | hm) | hm) | hm) | hm)
        · exact hsch hm
        · exact hsep hm
        · exact not_mem_takeWhile c _ _ hr2 hm
        · exact removeDotSegments_chars c hslash _
            (not_mem_takeWhile c _ _ (not_mem_dropWhile c _ _ hr2)) hm
        · exact not_mem_dropWhile c _ _ (not_mem_dropWhile c _ _ hr2) hm
      · rename_i x1 tl hx heq
        injection h with h
        subst h
        intro hm
        simp only [String.data_append, List.mem_append] at hm
        rcases hm with ((((hm | hm) | hm) | hm) | hm)
        · exact hsch hm
        · exact hsep hm
        · exact hauth hm
        · exact removeDotSegments_chars c hslash _ (not_mem_takeWhile c _ _ href) hm
        · exact not_mem_dropWhile c _ _ href hm
      · rename_i x tl heq
        injection h with h
        subst h
        intro hm
        simp only [String.data_append, List.mem_append] at hm
        rcases hm with ((((hm | hm) | hm) | hm) | hm)
        · exact hsch hm
        · exact hsep hm
        · exact hauth hm
        · exact hpath hm
        · exact href hm
      · rename_i x tl heq
        injection h with h
        subst h
        intro hm
        simp only [String.data_append, List.mem_append] at hm
        rcases hm with (((((hm | hm) | hm) | hm) | hm) | hm)
        · exact hsch hm
        · exact hsep hm
        · exact hauth hm
        · exact hpath hm
        · exact hrq hm
        · exact href hm
      · rename_i x heq
        injection h with h
        subst h
        intro hm
        simp only [String.data_append, List.mem_append] at hm
        rcases hm with ((((hm | hm) | hm) | hm) | hm)
        · exact hsch hm
        · exact hsep hm
        · exact hauth hm
        · exact hpath hm
        · exact hrq hm
      · rename_i x5 x4 x3 x2 x1 x0
        injection h with h
        subst h
        have hmerged : c ∉ (if b.path = "" then '/' :: List.takeWhile notPathStop ref.data
            else upToLastSlash b.path.data ++ List.takeWhile notPathStop ref.data) := by
          by_cases hbp : b.path = ""
          · rw [if_pos hbp]
            intro hm
            rcases List.mem_cons.mp hm with he | hm2
            · exact hslash he
            · exact not_mem_takeWhile c _ _ href hm2
          · rw [if_neg hbp]
            intro hm
            rcases List.mem_append.mp hm with hm2 | hm2
            · exact upToLastSlash_subset c _ hpath hm2
            · exact not_mem_takeWhile c _ _ href hm2
        intro hm
        simp only [String.data_append, List.mem_append] at hm
        rcases hm with ((((hm | hm) | hm) | hm) | hm)
        · exact hsch hm
        · exact hsep hm
        · exact hauth hm
        · exact removeDotSegments_chars c hslash _ hmerged hm
        · exact not_mem_dropWhile c _ _ href hm

theorem absolutizeImageUrl_some_not_skip (url baseUrl abs : String)
    (h : absolutizeImageUrl url baseUrl = some abs) :
    strStarts url "http://" = false ∧ strStarts url "https://" = false ∧
    strStarts url "data:" = false ∧ strStarts url "blob:" = false ∧
    resolveUrl url (if strEnds baseUrl "/" then baseUrl else baseUrl ++ "/") = some abs := by
  unfold absolutizeImageUrl at h
  by_cases h1 : (strStarts url "http://" || strStarts url "https://") = true
  · rw [if_pos h1] at h
    exact Option.noConfusion h
  · rw [if_neg h1] at h
    by_cases h2 : (strStarts url "data:" || strStarts url "blob:") = true
    · rw [if_pos h2] at h
      exact Option.noConfusion h
    · rw [if_neg h2] at h
      simp only [Bool.or_eq_true, not_or, Bool.not_eq_true] at h1 h2
      exact ⟨h1.1, h1.2, h2.1, h2.2, h⟩

theorem absolutizeImageUrl_colon (url baseUrl abs : String) (hurl : ':' ∉ url.data)
    (h : absolutizeImageUrl url baseUrl = some abs) : ':' ∈ abs.data := by
  obtain ⟨_, _, _, _, hres⟩ := absolutizeImageUrl_some_not_skip url baseUrl abs h
  exact resolveUrl_colon url _ abs hurl hres

theorem absolutizeImageUrl_chars (c : Char) (url baseUrl abs : String)
    (hurl : c ∉ url.data) (hbase : c ∉ baseUrl.data)
    (hslash : c ≠ '/') (hcolon : c ≠ ':') (hq : c ≠ '?')
    (h : absolutizeImageUrl url baseUrl = some abs) : c ∉ abs.data := by
  obtain ⟨_, _, _, _, hres⟩ := absolutizeImageUrl_some_not_skip url baseUrl abs h
  refine resolveUrl_chars c url _ abs hurl ?_ hslash hcolon hq hres
  by_cases hb : strEnds baseUrl "/" = true
  · rw [if_pos hb]
    exact hbase
  · rw [if_neg hb]
    intro hm
    rcases List.mem_append.mp hm with hm2 | hm2
    · exact hbase hm2
    · rcases List.mem_cons.mp hm2 with he | hm3
      · exact hslash he
      · exact absurd hm3 (List.not_mem_nil c)

/-! ## The deferred replacements of a well-formed document land on their
own references -/

theorem repsOf_mem (baseUrl : String) (items : List (String × String × String))
    (pr : String × String) (h : pr ∈ repsOf baseUrl items) :
    ∃ it ∈ items, ∃ abs, absolutizeImageUrl it.2.2 baseUrl = some abs ∧
      pr.1 = mkImageRef it.2.1 it.2.2 ∧ pr.2 = mkImageRef it.2.1 abs := by
  unfold repsOf at h
  rw [List.mem_filterMap] at h
  obtain ⟨it, hit, heq⟩ := h
  cases habs : absolutizeImageUrl it.2.2 baseUrl with
  | none =>
    simp only [habs] at heq
    exact Option.noConfusion heq
  | some abs =>
    simp only [habs, Option.some.injEq] at heq
    exact ⟨it, hit, abs, habs, by rw [← heq], by rw [← heq]⟩

theorem skip_or_colon_free (u baseUrl abs : String)
    (hd : strStarts u "http://" = true ∨ strStarts u "https://" = true ∨
      strStarts u "data:" = true ∨ strStarts u "blob:" = true ∨ ':' ∉ u.data)
    (habs : absolutizeImageUrl u baseUrl = some abs) : ':' ∉ u.data := by
  obtain ⟨h1, h2, h3, h4, _⟩ := absolutizeImageUrl_some_not_skip u baseUrl abs habs
  rcases hd with hh | hh | hh | hh | hh
  · rw [h1] at hh; exact Bool.noConfusion hh
  · rw [h2] at hh; exact Bool.noConfusion hh
  · rw [h3] at hh; exact Bool.noConfusion hh
  · rw [h4] at hh; exact Bool.noConfusion hh
  · exact hh

theorem noSpanStart_span (a1 u1 a2 u2 : String)
    (h1 : ']' ∉ a1.data) (h2 : ']' ∉ a2.data) (h3 : ')' ∉ u1.data) (h4 : ')' ∉ u2.data)
    (ha2 : '!' ∉ a2.data) (hu2 : '!' ∉ u2.data)
    (hne : ¬(a1 = a2 ∧ u1 = u2)) :
    noSpanStart (mkImageRef a1 u1).data (mkImageRef a2 u2).data := by
  intro i Q hi
  cases i with
  | zero =>
    rw [List.drop_zero]
    by_cases hp : (mkImageRef a1 u1).data.isPrefixOf ((mkImageRef a2 u2).data ++ Q) = true
    · exact absurd (mkImageRef_prefix_eq a1 u1 a2 u2 Q h1 h2 h3 h4 hp) hne
    · exact Bool.eq_false_iff.mpr hp
  | succ j =>
    have htail : '!' ∉ ('[' :: (a2.data ++ ']' :: '(' :: (u2.data ++ [')']))) := by
      intro hm
      rcases List.mem_cons.mp hm with he | hm2
      · exact absurd he (by decide)
      · rcases List.mem_append.mp hm2 with hm3 | hm3
        · exact ha2 hm3
        · rcases List.mem_cons.mp hm3 with he | hm4
          · exact absurd he (by decide)
          · rcases List.mem_cons.mp hm4 with he | hm5
            · exact absurd he (by decide)
            · rcases List.mem_append.mp hm5 with hm6 | hm6
              · exact hu2 hm6
              · rcases List.mem_cons.mp hm6 with he | hm7
                · exact absurd he (by decide)
                · exact absurd hm7 (List.not_mem_nil '!')
    have hns := noSpanStart_of_bang ('[' :: (a1.data ++ ']' :: '(' :: (u1.data ++ [')'])))
      ('[' :: (a2.data ++ ']' :: '(' :: (u2.data ++ [')']))) htail
    have hi' : j < ('[' :: (a2.data ++ ']' :: '(' :: (u2.data ++ [')']))).length := by
      have hd : (mkImageRef a2 u2).data =
          '!' :: ('[' :: (a2.data ++ ']' :: '(' :: (u2.data ++ [')']))) := rfl
      rw [hd, List.length_cons] at hi
      omega
    exact hns j Q hi'

theorem repsOf_noSpanStart (baseUrl : String) (items : List (String × String × String))
    (hitems : ∀ it ∈ items, itemOk it) (s : String) (hs : '!' ∉ s.data)
    (a v : String) (ha : ']' ∉ a.data) (hv : ')' ∉ v.data)
    (haB : '!' ∉ a.data) (hvB : '!' ∉ v.data)
    (hdist : ∀ it ∈ items, ∀ abs, absolutizeImageUrl it.2.2 baseUrl = some abs →
      ¬(it.2.1 = a ∧ it.2.2 = v)) :
    ∀ pr ∈ repsOf baseUrl items, noSpanStart pr.1.data (s.data ++ (mkImageRef a v).data) := by
  intro pr hpr
  obtain ⟨it, hit, abs, habs, hpr1, _⟩ := repsOf_mem baseUrl items pr hpr
  obtain ⟨_, haj, _, _, hupj, _, _⟩ := hitems it hit
  rw [hpr1]
  apply noSpanStart_append
  · exact noSpanStart_of_bang _ s.data hs
  · exact noSpanStart_span it.2.1 it.2.2 a v haj ha hupj hv haB hvB (hdist it hit abs habs)

theorem applyReps_assembleDoc (baseUrl : String)
    (hb1 : '!' ∉ baseUrl.data) (hb2 : ')' ∉ baseUrl.data) :
    ∀ (items : List (String × String × String)) (lastSeg : String),
      (∀ it ∈ items, itemOk it) →
      applyReps (repsOf baseUrl items) (assembleDoc items lastSeg).data =
        (assembleDoc (rewriteItems baseUrl items) lastSeg).data := by
  intro items
  induction items with
  | nil => intro lastSeg _; rfl
  | cons it rest ih =>
    intro lastSeg hall
    obtain ⟨s, a, u⟩ := it
    obtain ⟨hs, ha, haB, hne, huP, huB, hdisj⟩ := hall (s, a, u) (List.mem_cons_self _ _)
    have hrest : ∀ it ∈ rest, itemOk it := fun it hm => hall it (List.mem_cons_of_mem _ hm)
    cases habs : absolutizeImageUrl u baseUrl with
    | none =>
      have hreps : repsOf baseUrl ((s, a, u) :: rest) = repsOf baseUrl rest := by
        simp only [repsOf, List.filterMap_cons, habs]
      have hrw : rewriteUrl u baseUrl = u := by simp only [rewriteUrl, habs]
      rw [hreps, assembleDoc_data_group]
      have hns : ∀ pr ∈ repsOf baseUrl rest,
          noSpanStart pr.1.data (s.data ++ (mkImageRef a u).data) := by
        refine repsOf_noSpanStart baseUrl rest hrest s hs a u ha huP haB huB ?_
        intro it hm abs2 habs2 hpair
        rw [hpair.2, habs] at habs2
        exact Option.noConfusion habs2
      rw [applyReps_append (repsOf baseUrl rest) _ _ hns, ih lastSeg hrest]
      have hmap : rewriteItems baseUrl ((s, a, u) :: rest) =
          (s, a, u) :: rewriteItems baseUrl rest := by
        simp only [rewriteItems, List.map_cons, hrw]
      rw [hmap, assembleDoc_data_group]
    | some abs =>
      have hcf : ':' ∉ u.data := skip_or_colon_free u baseUrl abs hdisj habs
      have habsColon : ':' ∈ abs.data := absolutizeImageUrl_colon u baseUrl abs hcf habs
      have habsBang : '!' ∉ abs.data :=
        absolutizeImageUrl_chars '!' u baseUrl abs huB hb1
          (by decide) (by decide) (by decide) habs
      have habsParen : ')' ∉ abs.data :=
        absolutizeImageUrl_chars ')' u baseUrl abs huP hb2
          (by decide) (by decide) (by decide) habs
      have hreps : repsOf baseUrl ((s, a, u) :: rest) =
          (mkImageRef a u, mkImageRef a abs) :: repsOf baseUrl rest := by
        simp only [repsOf, List.filterMap_cons, habs]
      have hrw : rewriteUrl u baseUrl = abs := by simp only [rewriteUrl, habs]
      have hnsS : noSpanStart (mkImageRef a u).data s.data := noSpanStart_of_bang _ s.data hs
      have hnenil : (mkImageRef a u).data ≠ [] := List.cons_ne_nil _ _
      rw [hreps, assembleDoc_data_group, applyReps_cons, List.append_assoc]
      rw [show (mkImageRef a u, mkImageRef a abs).1 = mkImageRef a u from rfl,
        show (mkImageRef a u, mkImageRef a abs).2 = mkImageRef a abs from rfl]
      rw [replaceFirstAux_append_of_noSpanStart _ _ s.data _ hnsS]
      rw [replaceFirstAux_head (mkImageRef a u).data (mkImageRef a abs).data _ hnenil]
      rw [← List.append_assoc]
      have hns : ∀ pr ∈ repsOf baseUrl rest,
          noSpanStart pr.1.data (s.data ++ (mkImageRef a abs).data) := by
        refine repsOf_noSpanStart baseUrl rest hrest s hs a abs ha habsParen haB habsBang ?_
        intro it hm abs2 habs2 hpair
        obtain ⟨_, _, _, _, _, _, hdj⟩ := hrest it hm
        have hjcf : ':' ∉ it.2.2.data := skip_or_colon_free it.2.2 baseUrl abs2 hdj habs2
        rw [hpair.2] at hjcf
        exact hjcf habsColon
      rw [applyReps_append _ _ _ hns, ih lastSeg hrest]
      have hmap : rewriteItems baseUrl ((s, a, u) :: rest) =
          (s, a, abs) :: rewriteItems baseUrl rest := by
        simp only [rewriteItems, List.map_cons, hrw]
      rw [hmap, assembleDoc_data_group]

/-! ## Claim C1: the absolutize pass -/

instance (it : String × String × String) : Decidable (itemOk it) := by
  unfold itemOk; infer_instance

instance (baseUrl lastSeg : String) (items : List (String × String × String)) :
    Decidable (docOk baseUrl lastSeg items) := by
  unfold docOk; infer_instance

theorem convertRelativeImageUrls_eq_applyReps (md baseUrl : String) :
    (convertRelativeImageUrls md baseUrl).data =
      applyReps ((scanImages md.data).filterMap (fun pr =>
        match absolutizeImageUrl ⟨pr.2⟩ baseUrl with
        | none => none
        | some absUrl => some (mkImageRef ⟨pr.1⟩ ⟨pr.2⟩, mkImageRef ⟨pr.1⟩ absUrl))) md.data :=
  foldl_replaceFirst_data _ md

/-- C1 counterexample: the pass computes all replacements first and
applies them afterwards by first-occurrence `replace`, so on
`![A](x![B](y) ![B](y)` with base `https://s.com/` the replacement for
the second reference `![B](y)` lands inside the first reference's
already-rewritten URL: the second resolvable reference is left
unchanged and the first reference's URL is corrupted, contradicting the
claimed per-reference rewrite. -/
theorem convertRelativeImageUrls_deferred_cex :
    scanImages ("![A](x![B](y) ![B](y)" : String).data =
      [("A".data, "x![B](y".data), ("B".data, "y".data)] ∧
    absolutizeImageUrl "y" "https://s.com/" = some "https://s.com/y" ∧
    convertRelativeImageUrls "![A](x![B](y) ![B](y)" "https://s.com/" =
      "![A](https://s.com/x![B](https://s.com/y) ![B](y)" ∧
    convertRelativeImageUrls "![A](x![B](y) ![B](y)" "https://s.com/" ≠
      "![A](https://s.com/x![B](y) ![B](https://s.com/y)" :=
  ⟨by decide, by decide, by decide, by decide⟩

/-- C1 (amended): over every document assembled from interleaved text
segments and image references that satisfies the `docOk` textual
unambiguity provisos, `convertRelativeImageUrls` leaves every reference
whose URL starts with `http://`, `https://`, `data:` or `blob:`
unchanged and rewrites every other reference's URL to its resolution
against the base URL, preserving alt texts and text segments;
skip-prefixed URLs are never resolved; non-skipped URLs are resolved
against the base with a trailing `/` appended when the base lacks one;
a URL whose resolution fails is left unchanged; and the claim's
round-trip example holds: base `https://site.com/page` with reference
`images/photo.png` yields `https://site.com/page/images/photo.png`. -/
theorem convertRelativeImageUrls_rules :
    (∀ (baseUrl lastSeg : String) (items : List (String × String × String)),
      docOk baseUrl lastSeg items →
      convertRelativeImageUrls (assembleDoc items lastSeg) baseUrl =
        assembleDoc (rewriteItems baseUrl items) lastSeg) ∧
    (∀ url baseUrl : String,
      (strStarts url "http://" = true ∨ strStarts url "https://" = true ∨
       strStarts url "data:" = true ∨ strStarts url "blob:" = true) →
      absolutizeImageUrl url baseUrl = none ∧ rewriteUrl url baseUrl = url) ∧
    (∀ url baseUrl : String,
      strStarts url "http://" = false → strStarts url "https://" = false →
      strStarts url "data:" = false → strStarts url "blob:" = false →
      absolutizeImageUrl url baseUrl =
        resolveUrl url (if strEnds baseUrl "/" then baseUrl else baseUrl ++ "/")) ∧
    (∀ url baseUrl : String, absolutizeImageUrl url baseUrl = none →
      rewriteUrl url baseUrl = url) ∧
    convertRelativeImageUrls "![photo](images/photo.png)" "https://site.com/page" =
      "![photo](https://site.com/page/images/photo.png)" := by
  refine ⟨?_, ?_, ?_, ?_, by decide⟩
  · intro baseUrl lastSeg items hdoc
    obtain ⟨hb1, hb2, hlast, hitems⟩ := hdoc
    have hscan : scanImages (assembleDoc items lastSeg).data = itemRefs items :=
      scanImages_assembleDoc items lastSeg hlast (fun it hm =>
        ⟨(hitems it hm).1, (hitems it hm).2.1,
         (hitems it hm).2.2.2.2.1, (hitems it hm).2.2.2.1⟩)
    apply String.ext
    rw [convertRelativeImageUrls_eq_applyReps, hscan]
    have hfm : (itemRefs items).filterMap (fun pr =>
        match absolutizeImageUrl ⟨pr.2⟩ baseUrl with
        | none => none
        | some absUrl => some (mkImageRef ⟨pr.1⟩ ⟨pr.2⟩, mkImageRef ⟨pr.1⟩ absUrl)) =
        repsOf baseUrl items := by
      unfold itemRefs repsOf
      rw [List.filterMap_map]
      refine congrArg (fun f => List.filterMap f items) ?_
      funext it
      rfl
    rw [hfm]
    exact applyReps_assembleDoc baseUrl hb1 hb2 items lastSeg hitems
  · intro url baseUrl hd
    have hnone : absolutizeImageUrl url baseUrl = none := by
      unfold absolutizeImageUrl
      rcases hd with hh | hh | hh | hh
      · rw [if_pos (by simp [hh])]
      · rw [if_pos (by simp [hh])]
      · by_cases h1 : (strStarts url "http://" || strStarts url "https://") = true
        · rw [if_pos h1]
        · rw [if_neg h1, if_pos (by simp [hh])]
      · by_cases h1 : (strStarts url "http://" || strStarts url "https://") = true
        · rw [if_pos h1]
        · rw [if_neg h1, if_pos (by simp [hh])]
    exact ⟨hnone, by simp only [rewriteUrl, hnone]⟩
  · intro url baseUrl h1 h2 h3 h4
    unfold absolutizeImageUrl
    rw [if_neg (by simp [h1, h2]), if_neg (by simp [h3, h4])]
  · intro url baseUrl hnone
    simp only [rewriteUrl, hnone]

theorem convertRelativeImageUrls_rules_witness :
    docOk "https://site.com/dir/" " outro"
      [("intro ", "a", "img/x.png"), (" mid ", "b", "https://keep.com/k.png")] ∧
    convertRelativeImageUrls
      (assembleDoc
        [("intro ", "a", "img/x.png"), (" mid ", "b", "https://keep.com/k.png")] " outro")
      "https://site.com/dir/" =
      assembleDoc
        (rewriteItems "https://site.com/dir/"
          [("intro ", "a", "img/x.png"), (" mid ", "b", "https://keep.com/k.png")]) " outro" :=
  ⟨by decide, convertRelativeImageUrls_rules.1 "https://site.com/dir/" " outro"
    [("intro ", "a", "img/x.png"), (" mid ", "b", "https://keep.com/k.png")] (by decide)⟩
